import Mathlib

/-!
# Formal model of `telegram_claude_bot.py`

A shallow embedding of the core of the bot: the chunked line framer and
read loop of `BotInstance.call_claude`, the event handler
`_process_line`, the session store (`get_session_id` / `set_session_id` /
`clear_session`), the retry controller `call_claude_with_retry`, the
throttled tool-use status notices, the delivery retry helpers
`_retry_on_network_error` / `send_long_message`, and the markdown
renderer (`_extract_tables`, `markdown_to_telegram_html`) with the
chunker `_split_text`.

Conventions: bytes are `Nat` values (0..255) and byte strings are
`List Nat`; Python `str` values are `List Char`.  Chat ids (Python ints,
used as the decimal-string keys of the sessions dict; `str` is injective
on ints) are modelled as `Int`.  Each definition is a direct translation
of the correspondingly named construct of the source file.
-/

/-- ASCII whitespace bytes, exactly the set stripped by Python
`bytes.strip()`. -/
def isWsByte (b : Nat) : Bool :=
  b = 9 || b = 10 || b = 11 || b = 12 || b = 13 || b = 32

/-- Python `bytes.strip()`: drop leading and trailing ASCII whitespace. -/
def stripBytes (l : List Nat) : List Nat :=
  ((l.dropWhile isWsByte).reverse.dropWhile isWsByte).reverse

/-- Split a byte string at its first newline byte (10).  `none` models
`b"\n" in buf` being false; `some (line, rest)` models
`buf.split(b"\n", 1)` in the read loop of `call_claude`. -/
def splitFirstNl : List Nat → Option (List Nat × List Nat)
  | [] => none
  | b :: rest =>
    if b = 10 then some ([], rest)
    else (splitFirstNl rest).map (fun p => (b :: p.1, p.2))

/-- The inner `while b"\n" in buf:` loop of `call_claude`: repeatedly
split off the text before the next newline.  Returns the sequence of
complete lines handed to `_process_line` and the remaining partial
line. -/
def drainLines (buf : List Nat) : List (List Nat) × List Nat :=
  match h : splitFirstNl buf with
  | none => ([], buf)
  | some (l, rest) =>
    let p := drainLines rest
    (l :: p.1, p.2)
termination_by buf.length
decreasing_by
  have key : ∀ (b a r : List Nat), splitFirstNl b = some (a, r) → r.length < b.length := by
    intro b
    induction b with
    | nil => intro a r h2; simp [splitFirstNl] at h2
    | cons x xs ih =>
      intro a r h2
      simp only [splitFirstNl] at h2
      by_cases hx : x = 10
      · simp only [hx, if_true] at h2
        cases h2
        simp
      · simp only [hx, if_false] at h2
        cases hs : splitFirstNl xs with
        | none => rw [hs] at h2; simp at h2
        | some p =>
          rw [hs] at h2
          obtain ⟨a', r'⟩ := p
          simp only [Option.map] at h2
          rw [Option.some.injEq, Prod.mk.injEq] at h2
          obtain ⟨hA, hR⟩ := h2
          have := ih a' r' hs
          rw [← hR]
          simp only [List.length_cons]
          omega
  exact key buf l rest h

/-- Naive newline split of a whole byte stream: Python `s.split(b"\n")`.
This is the reference the specification measures the line framer
against. -/
def naiveSplitNl : List Nat → List (List Nat)
  | [] => [[]]
  | b :: rest =>
    if b = 10 then [] :: naiveSplitNl rest
    else
      match naiveSplitNl rest with
      | [] => [[b]]
      | l :: ls => (b :: l) :: ls

/-- Python `str(n)` for a natural number, as a list of decimal digit
characters. -/
def natToCharsAux : Nat → Nat → List Char
  | 0, _ => []
  | fuel + 1, n =>
    if n < 10 then [Char.ofNat (48 + n)]
    else natToCharsAux fuel (n / 10) ++ [Char.ofNat (48 + n % 10)]

def natToChars (n : Nat) : List Char :=
  natToCharsAux (n + 1) n

/-- The user-visible text returned on the two timeout paths of
`call_claude` (deadline already past, or `asyncio.wait_for` timing out):
`f"Claude timed out after {self.claude_timeout}s. Try a simpler request."`. -/
def timeoutMsg (T : Nat) : List Char :=
  ("Claude timed out after ").toList ++ natToChars T ++ ("s. Try a simpler request.").toList

/-- Result of the read loop of `call_claude`.  `timedOut` records that
`proc.kill()` and `await proc.communicate()` ran (the `killed` and
`drained` flags) together with the returned message and session id;
`streamEnd` is the EOF exit carrying the event-handler state after the
trailing partial line was handled; `procError` models an exception
escaping `_process_line` (nothing in the loop catches one). -/
inductive LoopExit (σ : Type) where
  | timedOut (killed drained : Bool) (text : List Char) (sid : Option (List Char))
  | streamEnd (st : σ)
  | procError

deriving DecidableEq

/-- `await _process_line(raw_line)` applied to each complete line in
order; an exception from any line aborts the whole sequence. -/
def processLines {σ : Type} (proc : σ → List Nat → Except Unit σ) :
    σ → List (List Nat) → Except Unit σ
  | st, [] => .ok st
  | st, l :: ls =>
    match proc st l with
    | .error e => .error e
    | .ok st' => processLines proc st' ls

/-- After EOF, `call_claude` runs `if buf.strip(): await _process_line(buf)`:
the trailing partial line is handled exactly once if it is non-empty
after stripping ASCII whitespace. -/
def eofFinish {σ : Type} (proc : σ → List Nat → Except Unit σ) (st : σ) (buf : List Nat) :
    LoopExit σ :=
  match (if stripBytes buf ≠ [] then proc st buf else .ok st) with
  | .error _ => LoopExit.procError
  | .ok st' => LoopExit.streamEnd st'

/-- The `while True:` read loop of `call_claude`.  `T` is
`claude_timeout`; `sid0` the `session_id` argument; `elapsed` the
monotonic time since the deadline was computed; `buf` the residual byte
buffer; `reads` the pending reads, each a pair of the time the read takes
and the chunk it returns (an empty chunk is EOF, as is exhausting
`reads`).  Each iteration first checks `deadline - time.monotonic() <= 0`
(`T ≤ elapsed`), then performs
`asyncio.wait_for(proc.stdout.read(1024 * 1024), timeout=remaining)`
(`asyncio.TimeoutError` when the read takes longer than the remaining
time), then appends the chunk to `buf` and drains complete lines into
`_process_line`.  The deadline check is the same on both list shapes; it
is written per pattern only to ease structural recursion. -/
def callLoop (T : Nat) (sid0 : Option (List Char)) {σ : Type}
    (proc : σ → List Nat → Except Unit σ) :
    Nat → σ → List Nat → List (Nat × List Nat) → LoopExit σ
  | elapsed, st, buf, [] =>
    if T ≤ elapsed then LoopExit.timedOut true true (timeoutMsg T) sid0
    else eofFinish proc st buf
  | elapsed, st, buf, (d, chunk) :: rest =>
    if T ≤ elapsed then LoopExit.timedOut true true (timeoutMsg T) sid0
    else if T - elapsed < d then LoopExit.timedOut true true (timeoutMsg T) sid0
    else if chunk = [] then eofFinish proc st buf
    else
      match processLines proc st (drainLines (buf ++ chunk)).1 with
      | .error _ => LoopExit.procError
      | .ok st' => callLoop T sid0 proc (elapsed + d) st' (drainLines (buf ++ chunk)).2 rest

/-- The sequence of raw lines `call_claude`'s framing feeds to
`_process_line` for a given chunking of the stream, extracted by running
the read loop with a line-recording handler and no time pressure. -/
def lineRecorder (acc : List (List Nat)) (l : List Nat) : Except Unit (List (List Nat)) :=
  .ok (acc ++ [l])

def feedStream (chunks : List (List Nat)) : List (List Nat) :=
  match callLoop 1 none lineRecorder 0 [] [] (chunks.map (fun c => (0, c))) with
  | .streamEnd st => st
  | _ => []

/-! ## Session store

`load_sessions` / `save_sessions` round a JSON dict through disk
(atomically, via a temp file and rename); in memory the dict maps
`str(chat_id)` (injective in the chat id, so keyed here by the chat id
itself) to the session id.  The dict is modelled as an association list
with the usual replace-or-append write, which is exactly a Python dict's
key semantics.  `get_session_id` / `set_session_id` / `clear_session`
each load the dict, act on it, and save it; the file round-trip is the
identity modelled away here. -/

abbrev Store := List (Int × List Char)

def get_session_id (m : Store) (k : Int) : Option (List Char) :=
  (m.find? (fun p => p.1 == k)).map Prod.snd

def set_session_id : Store → Int → List Char → Store
  | [], k, v => [(k, v)]
  | p :: ps, k, v => if p.1 == k then (k, v) :: ps else p :: set_session_id ps k v

def clear_session (m : Store) (k : Int) : Store :=
  m.filter (fun p => p.1 != k)

/-! ## Invocation outcomes and the retry controller -/

/-- Python truthiness of an optional string (`if session_id:` and
`if new_session_id:` in the source): `None` and `""` are falsy. -/
def truthy : Option (List Char) → Bool
  | none => false
  | some s => !s.isEmpty

/-- How a `call_claude` invocation resolves, abstracting the subprocess:
`success text sid` is exit code 0 with a result text, `sid` being the
last `session_id` field observed in the event stream when any was;
`agentError code stderr` is a non-zero exit; `timeout` is deadline
expiry; `empty sid` is exit code 0 with no result text. -/
inductive Outcome where
  | success (text : List Char) (sid : Option (List Char))
  | agentError (code : List Char) (stderr : List Char)
  | timeout
  | empty (sid : Option (List Char))

deriving DecidableEq

/-- `f"Claude error (exit code {proc.returncode}):\n{stderr_text[:500]}"`. -/
def errMsg (code stderr : List Char) : List Char :=
  ("Claude error (exit code ").toList ++ code ++ ("):\n").toList ++ stderr.take 500

/-- `"Claude returned an empty response."`. -/
def emptyMsg : List Char :=
  ("Claude returned an empty response.").toList

/-- The prefix `call_claude_with_retry` tests with
`result.startswith("Claude error")`. -/
def claudeErrPfx : List Char := ("Claude error").toList

structure CallResult where
  text : List Char
  sid : Option (List Char)

deriving DecidableEq

/-- The `(response_text, session_id)` pair `call_claude` returns for a
given outcome and passed-in session id.  `new_session_id` starts as the
passed-in id and is overwritten by every observed `session_id` field, so
the success and empty paths carry the stream's last id when one was
seen and otherwise the passed-in id, while the error and timeout paths
return the original `session_id` argument itself. -/
def runOutcome (T : Nat) (passed : Option (List Char)) : Outcome → CallResult
  | .success t ssid => ⟨t, ssid.orElse (fun _ => passed)⟩
  | .agentError code stderr => ⟨errMsg code stderr, passed⟩
  | .timeout => ⟨timeoutMsg T, passed⟩
  | .empty ssid => ⟨emptyMsg, ssid.orElse (fun _ => passed)⟩

structure RetryResult where
  store : Store
  text : List Char
  sid : Option (List Char)
  calls : List (Option (List Char))

deriving DecidableEq

/-- `call_claude_with_retry`: read the stored session id, invoke once
with it; when a truthy stored id was used and the result text starts
with `"Claude error"`, clear the stored id and invoke exactly once more
with no session id; finally persist the last invocation's returned
session id when it is truthy.  `o1` resolves the first invocation and
`o2` the second (consulted only when the retry happens); `calls` records
the session id passed to each spawned invocation, in order. -/
def call_claude_with_retry (T : Nat) (store : Store) (c : Int) (o1 o2 : Outcome) :
    RetryResult :=
  if truthy (get_session_id store c) &&
      claudeErrPfx.isPrefixOf (runOutcome T (get_session_id store c) o1).text then
    ⟨(if truthy (runOutcome T none o2).sid then
        set_session_id (clear_session store c) c ((runOutcome T none o2).sid.getD [])
      else clear_session store c),
     (runOutcome T none o2).text, (runOutcome T none o2).sid,
     [get_session_id store c, none]⟩
  else
    ⟨(if truthy (runOutcome T (get_session_id store c) o1).sid then
        set_session_id store c ((runOutcome T (get_session_id store c) o1).sid.getD [])
      else store),
     (runOutcome T (get_session_id store c) o1).text,
     (runOutcome T (get_session_id store c) o1).sid,
     [get_session_id store c]⟩

/-! ## `_process_line`: decoding and classification (C3) -/

def isCont (b : Nat) : Bool := 0x80 ≤ b && b ≤ 0xBF

def utf8Second3 (b b2 : Nat) : Bool :=
  if b = 0xE0 then 0xA0 ≤ b2 && b2 ≤ 0xBF
  else if b = 0xED then 0x80 ≤ b2 && b2 ≤ 0x9F
  else isCont b2

def utf8Second4 (b b2 : Nat) : Bool :=
  if b = 0xF0 then 0x90 ≤ b2 && b2 ≤ 0xBF
  else if b = 0xF4 then 0x80 ≤ b2 && b2 ≤ 0x8F
  else isCont b2

/-- Strict UTF-8 decoding, as performed by `raw.decode()` (errors are
*raised*, not replaced): `none` models `UnicodeDecodeError`. -/
def utf8Decode : List Nat → Option (List Char)
  | [] => some []
  | b :: rest =>
    if b ≤ 0x7F then (utf8Decode rest).map (fun cs => Char.ofNat b :: cs)
    else
      match rest with
      | [] => none
      | b2 :: rest2 =>
        if 0xC2 ≤ b && b ≤ 0xDF then
          if isCont b2 then
            (utf8Decode rest2).map (fun cs =>
              Char.ofNat ((b - 0xC0) * 64 + (b2 - 0x80)) :: cs)
          else none
        else
          match rest2 with
          | [] => none
          | b3 :: rest3 =>
            if 0xE0 ≤ b && b ≤ 0xEF then
              if utf8Second3 b b2 && isCont b3 then
                (utf8Decode rest3).map (fun cs =>
                  Char.ofNat ((b - 0xE0) * 4096 + (b2 - 0x80) * 64 + (b3 - 0x80)) :: cs)
              else none
            else
              match rest3 with
              | [] => none
              | b4 :: rest4 =>
                if 0xF0 ≤ b && b ≤ 0xF4 then
                  if utf8Second4 b b2 && isCont b3 && isCont b4 then
                    (utf8Decode rest4).map (fun cs =>
                      Char.ofNat ((b - 0xF0) * 262144 + (b2 - 0x80) * 4096 +
                        (b3 - 0x80) * 64 + (b4 - 0x80)) :: cs)
                  else none
                else none

/-- Whitespace characters stripped by Python `str.strip()` (ASCII part;
the event stream is ASCII-framed JSON). -/
def isPyWsChar (c : Char) : Bool :=
  c = ' ' || c = '\t' || c = '\n' || c = '\x0b' || c = '\x0c' || c = '\r'

/-- Python `str.strip()`. -/
def stripChars (l : List Char) : List Char :=
  ((l.dropWhile isPyWsChar).reverse.dropWhile isPyWsChar).reverse

/-- The fields of one decoded JSON event that `_process_line` consults:
`data.get("type")`, the `session_id` key when present (its value), and
`data.get("result", "")` for result events.  The `message.content`
blocks of assistant events drive only the status notices, modelled by
`throttleRun` below. -/
structure EventData where
  etype : Option (List Char)
  session_id : Option (List Char)
  result : Option (List Char)

deriving DecidableEq

/-- The two `nonlocal` variables of `call_claude` that `_process_line`
mutates besides the throttle clock. -/
structure PLState where
  result_text : List Char
  new_session_id : Option (List Char)

deriving DecidableEq

/-- `_process_line` for one raw line.  `raw.decode()` has no exception
handler, so a byte sequence that fails text decoding raises
(`Except.error`); a line that is blank after stripping returns at once;
`json.loads` failure (`parse` returning `none`) is caught and returns
silently; otherwise any `session_id` field overwrites the candidate
session id first, and a result event then overwrites the result text. -/
def process_line (parse : List Char → Option EventData) (st : PLState) (raw : List Nat) :
    Except Unit PLState :=
  match utf8Decode raw with
  | none => .error ()
  | some cs =>
    if stripChars cs = [] then .ok st
    else
      match parse (stripChars cs) with
      | none => .ok st
      | some d =>
        .ok (if d.etype == some (("result").toList) then
              { (match d.session_id with
                 | some s => { st with new_session_id := some s }
                 | none => st) with result_text := d.result.getD [] }
            else
              (match d.session_id with
               | some s => { st with new_session_id := some s }
               | none => st))

/-! ## Throttled tool-use notices (C9) -/

/-- One `tool_use` content block handled by the assistant branch of
`_process_line` (with `verbose` and `chat` set): the monotonic time
`now = time.monotonic()` taken when the block is examined, and whether
`chat.send_message` succeeds for it. -/
structure ToolUse where
  t : ℚ
  sendOk : Bool

/-- The throttle decision for one block: a notice goes out only when
`now - last_status_time >= STATUS_THROTTLE_SECS` (8) and the send does
not raise; only a *successful* send updates `last_status_time` (the
assignment sits after the `await` inside the `try`). -/
def throttleStep (last : ℚ) (e : ToolUse) : ℚ × Option ℚ :=
  if 8 ≤ e.t - last then
    (if e.sendOk then (e.t, some e.t) else (last, none))
  else (last, none)

/-- The emission times of the notices sent across a sequence of tool-use
blocks, starting from `last_status_time = 0.0`. -/
def throttleRun (last : ℚ) : List ToolUse → List ℚ
  | [] => []
  | e :: es =>
    match throttleStep last e with
    | (l', some t) => t :: throttleRun l' es
    | (l', none) => throttleRun l' es

/-! ## Markdown renderer and chunker (C6, C7, C8) -/

/-- Python regex `\w` (ASCII part): letters, digits, underscore. -/
def isWordChar (c : Char) : Bool := c.isAlpha || c.isDigit || c = '_'

/-- The fenced-code-block placeholder `f"\x00CB{idx}\x00"`. -/
def cbTok (i : Nat) : List Char := '\x00' :: 'C' :: 'B' :: (natToChars i ++ ['\x00'])

/-- The table placeholder `f"\x00TBL{idx}\x00"`. -/
def tblTok (i : Nat) : List Char := '\x00' :: 'T' :: 'B' :: 'L' :: (natToChars i ++ ['\x00'])

/-- The inline-code placeholder `f"\x00IC{idx}\x00"`. -/
def icTok (i : Nat) : List Char := '\x00' :: 'I' :: 'C' :: (natToChars i ++ ['\x00'])

/-- Python `text.split("\n")` on characters. -/
def splitLinesC : List Char → List (List Char)
  | [] => [[]]
  | c :: rest =>
    if c = '\n' then [] :: splitLinesC rest
    else
      match splitLinesC rest with
      | [] => [[c]]
      | l :: ls => (c :: l) :: ls

/-- Python `"\n".join(lines)`. -/
def joinLinesC (ls : List (List Char)) : List Char :=
  List.intercalate ['\n'] ls

/-- The lazy `(.*?)` search of the fenced-block pattern: text before the
first triple backtick (DOTALL, so newlines are allowed inside). -/
def findTripleTick : List Char → Option (List Char × List Char)
  | '\x60' :: '\x60' :: '\x60' :: rest => some ([], rest)
  | x :: rest => (findTripleTick rest).map (fun p => (x :: p.1, p.2))
  | [] => none

/-- `re.sub(r"```\w*\n?(.*?)```", _save_code_block, text, flags=re.DOTALL)`:
scan for an opening triple backtick, skip a `\w*` language tag and one
optional newline, lazily find the closing triple backtick, store the
content and emit a numbered placeholder; with no closing fence the
engine advances one character.  The fuel only bounds the recursion and
is ample at `text.length + 1`. -/
def extractCodeBlocksGo : Nat → List Char → List (List Char) → List Char →
    List Char × List (List Char)
  | 0, acc, blocks, rest => (acc ++ rest, blocks)
  | fuel + 1, acc, blocks, text =>
    match text with
    | [] => (acc, blocks)
    | x :: rest =>
      if x = '\x60' ∧ rest.take 2 = ['\x60', '\x60'] then
        let rest1 := rest.drop 2
        let tag := rest1.takeWhile isWordChar
        let rest2 := rest1.drop tag.length
        let rest3 := match rest2 with
          | '\n' :: r => r
          | _ => rest2
        match findTripleTick rest3 with
        | some (content, after) =>
          extractCodeBlocksGo fuel (acc ++ cbTok blocks.length) (blocks ++ [content]) after
        | none => extractCodeBlocksGo fuel (acc ++ [x]) blocks rest
      else extractCodeBlocksGo fuel (acc ++ [x]) blocks rest

def extractCodeBlocks (text : List Char) : List Char × List (List Char) :=
  extractCodeBlocksGo (text.length + 1) [] [] text

/-- `"|" in line`. -/
def hasPipe (l : List Char) : Bool := l.contains '|'

/-- The character class of the separator-row pattern `^[\s|:\-]+$`. -/
def sepCharsetChar (c : Char) : Bool := isPyWsChar c || c = '|' || c = ':' || c = '-'

/-- `"--" in line`. -/
def hasDoubleDash : List Char → Bool
  | '-' :: '-' :: _ => true
  | _ :: rest => hasDoubleDash rest
  | [] => false

/-- `re.match(r"^[\s|:\-]+$", line) and "--" in line`: the full
separator-row test of `_extract_tables`. -/
def isSeparatorLine (l : List Char) : Bool :=
  !l.isEmpty && l.all sepCharsetChar && hasDoubleDash l

/-- The inner `while i < len(lines) and "|" in lines[i]` collection of
`_extract_tables`: the leading run of pipe-containing lines and the
remaining lines. -/
def takeRun : List (List Char) → List (List Char) × List (List Char)
  | [] => ([], [])
  | l :: ls =>
    if hasPipe l then
      let p := takeRun ls
      (l :: p.1, p.2)
    else ([], l :: ls)

/-- The outer `while i < len(lines)` loop of `_extract_tables` over the
split lines, carrying the tables collected so far (`tacc`): a maximal
run of pipe-containing lines is replaced by one placeholder when it has
a separator row and at least two lines, and is passed through otherwise;
non-pipe lines are passed through. -/
def extractTablesGo : Nat → List (List Char) → List (List Char) →
    List (List Char) × List (List Char)
  | 0, tacc, lines => (lines, tacc)
  | fuel + 1, tacc, lines =>
    match lines with
    | [] => ([], tacc)
    | l :: ls =>
      if hasPipe l then
        let run := (takeRun (l :: ls)).1
        let rest := (takeRun (l :: ls)).2
        if run.any isSeparatorLine && decide (2 ≤ run.length) then
          let p := extractTablesGo fuel (tacc ++ [joinLinesC run]) rest
          (tblTok tacc.length :: p.1, p.2)
        else
          let p := extractTablesGo fuel tacc rest
          (run ++ p.1, p.2)
      else
        let p := extractTablesGo fuel tacc ls
        (l :: p.1, p.2)

/-- `_extract_tables(text)`: the text with table runs replaced by
placeholders, and the stored tables. -/
def extract_tables (text : List Char) : List Char × List (List Char) :=
  ((extractTablesGo ((splitLinesC text).length + 1) [] (splitLinesC text)).1 |> joinLinesC,
   (extractTablesGo ((splitLinesC text).length + 1) [] (splitLinesC text)).2)

/-- `re.sub(r"`([^`\n]+)`", _save_inline, text)`: an inline code span is
a backtick, one or more characters that are neither backtick nor
newline, and a closing backtick. -/
def extractInlineGo : Nat → List Char → List (List Char) → List Char →
    List Char × List (List Char)
  | 0, acc, codes, rest => (acc ++ rest, codes)
  | fuel + 1, acc, codes, text =>
    match text with
    | [] => (acc, codes)
    | x :: rest =>
      if x = '\x60' then
        let content := rest.takeWhile (fun ch => ch ≠ '\x60' ∧ ch ≠ '\n')
        let rest2 := rest.drop content.length
        match rest2 with
        | y :: after =>
          if y = '\x60' ∧ content ≠ [] then
            extractInlineGo fuel (acc ++ icTok codes.length) (codes ++ [content]) after
          else extractInlineGo fuel (acc ++ [x]) codes rest
        | [] => extractInlineGo fuel (acc ++ [x]) codes rest
      else extractInlineGo fuel (acc ++ [x]) codes rest

/-- One character under `html.escape` (with its default `quote=True`). -/
def escapeChar (ch : Char) : List Char :=
  if ch = '&' then ("&amp;").toList
  else if ch = '<' then ("&lt;").toList
  else if ch = '>' then ("&gt;").toList
  else if ch = '"' then ("&quot;").toList
  else if ch = '\x27' then ("&#x27;").toList
  else [ch]

/-- `html.escape(text)`. -/
def escapeHtml (l : List Char) : List Char := (l.map escapeChar).flatten

/-- One line under `re.sub(r"^#{1,6}\s+(.+)$", r"<b>\1</b>", text,
flags=re.MULTILINE)`: one to six hashes, at least one whitespace
character, then at least one (greedy) remaining character; the greedy
`\s+` gives one whitespace character back when nothing else is left for
`(.+)`. -/
def headingLine (l : List Char) : List Char :=
  let hs := l.takeWhile (fun ch => ch = '#')
  let rest := l.drop hs.length
  let w := rest.takeWhile isPyWsChar
  let k := min w.length (rest.length - 1)
  if 1 ≤ hs.length ∧ hs.length ≤ 6 ∧ 1 ≤ k then
    ("<b>").toList ++ rest.drop k ++ ("</b>").toList
  else l

/-- The MULTILINE heading pass applied per line.  Modelled per line: the
real `\s+` may also swallow the newline itself when the whole remainder
of the heading line is whitespace (e.g. a line of hashes and spaces
followed by a non-empty line); no theorem below exercises such an
input. -/
def headings (text : List Char) : List Char :=
  joinLinesC ((splitLinesC text).map headingLine)

/-- First occurrence of a doubled delimiter (no intervening newline—the
lazy `(.+?)` cannot cross `\n`), with the text before it. -/
def findDouble (c : Char) : List Char → Option (List Char × List Char)
  | x :: y :: rest =>
    if x = c ∧ y = c then some ([], rest)
    else if x = '\n' then none
    else (findDouble c (y :: rest)).map (fun p => (x :: p.1, p.2))
  | _ => none

/-- The lazy close search after a doubled opening delimiter: at least
one content character, then the nearest doubled delimiter. -/
def findDoubleClose (c : Char) : List Char → Option (List Char × List Char)
  | [] => none
  | x :: rest =>
    if x = '\n' then none
    else (findDouble c rest).map (fun p => (x :: p.1, p.2))

/-- `re.sub(r"\*\*(.+?)\*\*", r"<b>\1</b>", text)` and its `__`/`~~`
analogues: each match is replaced, scanning resumes after it; with no
close the engine advances one character. -/
def subDouble (c : Char) (tag : List Char) : Nat → List Char → List Char → List Char
  | 0, acc, rest => acc ++ rest
  | fuel + 1, acc, text =>
    match text with
    | [] => acc
    | x :: rest =>
      if x = c ∧ rest.take 1 = [c] then
        match findDoubleClose c (rest.drop 1) with
        | some (content, after) =>
          subDouble c tag fuel
            (acc ++ ('<' :: tag ++ ['>']) ++ content ++ ('<' :: '/' :: tag ++ ['>'])) after
        | none => subDouble c tag fuel (acc ++ [x]) rest
      else subDouble c tag fuel (acc ++ [x]) rest

/-- `re.sub(r"(?<!\w)\*([^\*\n]+?)\*(?!\w)", r"<i>\1</i>", text)` and
the `_` analogue: the lookbehind is tracked as `prevWord` while walking
the original text, content is the (delimiter- and newline-free) span to
the nearest closing delimiter, and the lookahead checks the next
character; at the end of text the lookahead succeeds. -/
def subItalic (c : Char) : Nat → Bool → List Char → List Char → List Char
  | 0, _, acc, rest => acc ++ rest
  | fuel + 1, prevWord, acc, text =>
    match text with
    | [] => acc
    | x :: rest =>
      if x = c ∧ prevWord = false then
        let content := rest.takeWhile (fun ch => ch ≠ c ∧ ch ≠ '\n')
        match rest.drop content.length with
        | y :: after =>
          if y = c ∧ content ≠ [] ∧ isWordChar (after.headD ' ') = false then
            subItalic c fuel (isWordChar c)
              (acc ++ ("<i>").toList ++ content ++ ("</i>").toList) after
          else subItalic c fuel (isWordChar x) (acc ++ [x]) rest
        | [] => subItalic c fuel (isWordChar x) (acc ++ [x]) rest
      else subItalic c fuel (isWordChar x) (acc ++ [x]) rest

/-- `re.sub(r"\[([^\]]+)\]\(([^)]+)\)", ..., text)`: `[label](url)`
with non-empty bracket-free label and non-empty paren-free url. -/
def subLinks : Nat → List Char → List Char → List Char
  | 0, acc, rest => acc ++ rest
  | fuel + 1, acc, text =>
    match text with
    | [] => acc
    | x :: rest =>
      if x = '[' then
        let lbl := rest.takeWhile (fun ch => ch ≠ ']')
        match rest.drop lbl.length with
        | ']' :: '(' :: rest3 =>
          if lbl ≠ [] then
            let url := rest3.takeWhile (fun ch => ch ≠ ')')
            match rest3.drop url.length with
            | ')' :: after =>
              if url ≠ [] then
                subLinks fuel
                  (acc ++ ("<a href=\"").toList ++ url ++ ("\">").toList ++ lbl ++
                    ("</a>").toList) after
              else subLinks fuel (acc ++ [x]) rest
            | _ => subLinks fuel (acc ++ [x]) rest
          else subLinks fuel (acc ++ [x]) rest
        | _ => subLinks fuel (acc ++ [x]) rest
      else subLinks fuel (acc ++ [x]) rest

/-- Python `str.replace`: every non-overlapping occurrence, left to
right. -/
def replaceAll (pat rep : List Char) : Nat → List Char → List Char
  | 0, text => text
  | fuel + 1, text =>
    match text with
    | [] => []
    | x :: rest =>
      if pat ≠ [] ∧ pat.isPrefixOf text then
        rep ++ replaceAll pat rep fuel (text.drop pat.length)
      else x :: replaceAll pat rep fuel rest

/-- `markdown_to_telegram_html`: extract fenced blocks, tables and
inline code to placeholders, escape, style (headings, bold, italic,
strikethrough, links), then restore the placeholders in that order, each
content escaped and wrapped. -/
def markdown_to_telegram_html (text : List Char) : List Char :=
  let p1 := extractCodeBlocks text
  let p2 := extract_tables p1.1
  let p3 := extractInlineGo (p2.1.length + 1) [] [] p2.1
  let t4 := escapeHtml p3.1
  let t5 := headings t4
  let t6 := subDouble '*' ['b'] (t5.length + 1) [] t5
  let t7 := subDouble '_' ['b'] (t6.length + 1) [] t6
  let t8 := subItalic '*' (t7.length + 1) false [] t7
  let t9 := subItalic '_' (t8.length + 1) false [] t8
  let t10 := subDouble '~' ['s'] (t9.length + 1) [] t9
  let t11 := subLinks (t10.length + 1) [] t10
  let t12 := p1.2.enum.foldl (fun t q =>
    replaceAll (cbTok q.1) (("<pre>").toList ++ escapeHtml q.2 ++ ("</pre>").toList)
      (t.length + 1) t) t11
  let t13 := p2.2.enum.foldl (fun t q =>
    replaceAll (tblTok q.1) (("<pre>").toList ++ escapeHtml q.2 ++ ("</pre>").toList)
      (t.length + 1) t) t12
  p3.2.enum.foldl (fun t q =>
    replaceAll (icTok q.1) (("<code>").toList ++ escapeHtml q.2 ++ ("</code>").toList)
      (t.length + 1) t) t13

def extract_tables_spec_go (tacc : List (List Char)) (lines : List (List Char)) :
    List (List Char) × List (List Char) :=
  match lines with
  | [] => ([], tacc)
  | l :: ls =>
    if h : hasPipe l = true then
      let run := (l :: ls).takeWhile hasPipe
      let rest := (l :: ls).dropWhile hasPipe
      if 2 ≤ run.length ∧ run.any isSeparatorLine then
        let p := extract_tables_spec_go (tacc ++ [joinLinesC run]) rest
        (tblTok tacc.length :: p.1, p.2)
      else
        let p := extract_tables_spec_go tacc rest
        (run ++ p.1, p.2)
    else
      let p := extract_tables_spec_go tacc ls
      (l :: p.1, p.2)
termination_by lines.length
decreasing_by
  · simp only [List.dropWhile_cons, h, if_true, List.length_cons]
    have : (ls.dropWhile hasPipe).length ≤ ls.length :=
      (List.dropWhile_sublist hasPipe).length_le
    omega
  · simp only [List.dropWhile_cons, h, if_true, List.length_cons]
    have : (ls.dropWhile hasPipe).length ≤ ls.length :=
      (List.dropWhile_sublist hasPipe).length_le
    omega
  · simp

/-- Telegram's maximum message length, `MAX_MSG_LEN = 4096`. -/
def MAX_MSG_LEN : Nat := 4096

/-- `sep` occurs in `s` at index `i`. -/
def matchesAt (sep s : List Char) (i : Nat) : Bool := sep.isPrefixOf (s.drop i)

/-- Descending search for the greatest matching index at most `start`. -/
def rfindAux (sep s : List Char) : Nat → Option Nat
  | 0 => if matchesAt sep s 0 then some 0 else none
  | i + 1 => if matchesAt sep s (i + 1) then some (i + 1) else rfindAux sep s i

/-- Python `s.rfind(sep, 0, e)`: the greatest index at which `sep`
occurs entirely within `s[0:e]`, `none` for `-1`. -/
def rfind (sep s : List Char) (e : Nat) : Option Nat :=
  if sep.length ≤ min e s.length then rfindAux sep s (min e s.length - sep.length)
  else none

def SPLIT_SEPS : List (List Char) := [("\n\n").toList, ("\n").toList, (" ").toList]

/-- The split-point search of `_split_text`: for each separator in
priority order, `idx = remaining.rfind(sep, 0, MAX_MSG_LEN)`; the first
one found at a positive index wins, the separator being kept with the
left chunk (`split_at = idx + len(sep)`); otherwise a hard cut at the
limit. -/
def chooseSplitFrom : List (List Char) → List Char → Nat
  | [], _ => MAX_MSG_LEN
  | sep :: seps, remaining =>
    match rfind sep remaining MAX_MSG_LEN with
    | some idx => if 0 < idx then idx + sep.length else chooseSplitFrom seps remaining
    | none => chooseSplitFrom seps remaining

def chooseSplit (remaining : List Char) : Nat := chooseSplitFrom SPLIT_SEPS remaining

/-- The `while remaining:` loop of `_split_text` (before the final
blank-chunk filter): short leftovers are one chunk; otherwise cut
`remaining[:split_at]` and continue on the rest. -/
def splitLoop (remaining : List Char) : List (List Char) :=
  if remaining = [] then []
  else if remaining.length ≤ MAX_MSG_LEN then [remaining]
  else remaining.take (chooseSplit remaining) :: splitLoop (remaining.drop (chooseSplit remaining))
termination_by remaining.length
decreasing_by
  rename_i hnil hlen
  have hpos : ∀ (seps : List (List Char)) (r : List Char), 1 ≤ chooseSplitFrom seps r := by
    intro seps
    induction seps with
    | nil => intro r; unfold chooseSplitFrom; decide
    | cons sep seps ih =>
      intro r
      unfold chooseSplitFrom
      cases hr : rfind sep r MAX_MSG_LEN with
      | none => exact ih r
      | some idx =>
        show 1 ≤ if 0 < idx then idx + sep.length else chooseSplitFrom seps r
        by_cases hp : 0 < idx
        · rw [if_pos hp]
          omega
        · rw [if_neg hp]
          exact ih r
  have h1 : 1 ≤ chooseSplit remaining := hpos SPLIT_SEPS remaining
  have h2 : 1 ≤ remaining.length := by
    cases hc : remaining with
    | nil => exact absurd hc hnil
    | cons a as => simp
  rw [List.length_drop]
  omega

/-- `_split_text`: text within the limit is returned unchanged as one
chunk; otherwise the loop's chunks, dropping whitespace-only ones
(`[c for c in chunks if c.strip()]`). -/
def split_text (text : List Char) : List (List Char) :=
  if text.length ≤ MAX_MSG_LEN then [text]
  else (splitLoop text).filter (fun c => !(stripChars c).isEmpty)

/-! ## Delivery retry and fallback (C5) -/

/-- The telegram-library errors the delivery path distinguishes.  In
python-telegram-bot, `TimedOut` is a *subclass* of `NetworkError`;
`other` stands for any exception that is not a `NetworkError` (e.g. a
`BadRequest` from HTML parsing). -/
inductive TgErr where
  | timedOut
  | netErr
  | other

deriving DecidableEq

/-- `isinstance(e, NetworkError)` — true for `TimedOut` as well. -/
def isNetworkError : TgErr → Bool
  | .timedOut => true
  | .netErr => true
  | .other => false

inductive TgRes where
  | ok
  | err (e : TgErr)

deriving DecidableEq

/-- `NETWORK_RETRY_DELAYS = [2, 5, 10]`. -/
def NETWORK_RETRY_DELAYS : List Nat := [2, 5, 10]

/-- `_retry_on_network_error(coro_factory, retries, retry_timeout)` over
the per-attempt outcomes `results` (the n-th call of `coro_factory()`),
walking `enumerate([0] + list(retries))` with the attempt index and
`last_err`.  Returns the delays slept, the number of sends attempted,
and the final result.  A `TimedOut` with `retry_timeout=False`
re-raises at once ("don't retry — server may have processed it"); a
`NetworkError` is retried over the schedule; any other exception
propagates uncaught; after the last attempt the last caught error is
re-raised (`Option.getD .other` stands for the unreachable
`raise None`). -/
def retryLoop (retryTimeout : Bool) (results : Nat → TgRes) :
    Nat → List Nat → Option TgErr → List Nat × Nat × Except TgErr Unit
  | _, [], lastErr => ([], 0, .error (lastErr.getD .other))
  | i, d :: ds, _ =>
    match results i with
    | .ok => ((if d = 0 then [] else [d]), 1, .ok ())
    | .err .timedOut =>
      if retryTimeout then
        ((if d = 0 then [] else [d]) ++
          (retryLoop retryTimeout results (i + 1) ds (some .timedOut)).1,
         1 + (retryLoop retryTimeout results (i + 1) ds (some .timedOut)).2.1,
         (retryLoop retryTimeout results (i + 1) ds (some .timedOut)).2.2)
      else ((if d = 0 then [] else [d]), 1, .error .timedOut)
    | .err .netErr =>
      ((if d = 0 then [] else [d]) ++
        (retryLoop retryTimeout results (i + 1) ds (some .netErr)).1,
       1 + (retryLoop retryTimeout results (i + 1) ds (some .netErr)).2.1,
       (retryLoop retryTimeout results (i + 1) ds (some .netErr)).2.2)
    | .err .other => ((if d = 0 then [] else [d]), 1, .error .other)

def retry_on_network_error (retryTimeout : Bool) (results : Nat → TgRes) :
    List Nat × Nat × Except TgErr Unit :=
  retryLoop retryTimeout results 0 (0 :: NETWORK_RETRY_DELAYS) none

inductive SendEvent where
  | sendHtml (payload : List Char)
  | sendPlain (payload : List Char)

deriving DecidableEq

/-- The resend-instruction `NetworkError` raised when the HTML and plain
sends both fail with network errors. -/
def resendMsg : List Char :=
  ("Claude finished but the reply could not be delivered (network error). Please resend your message.").toList

/-- The body of `send_long_message` for one chunk: send the
HTML-rendered chunk under `_retry_on_network_error`; if that raises a
`NetworkError` — which *includes* `TimedOut` — fall back to sending the
plain chunk under the helper, raising the resend-instruction
`NetworkError` when the plain sends also fail with a network error; on
any non-network exception do a single plain `reply_text` without the
retry wrapper.  `htmlRes` and `plainRes` give the outcomes of the
successive HTML and plain send attempts.  Returns every send performed,
in order, and the final result (an `error` is the exception propagating
to the caller, with the resend-instruction text when it applies). -/
def send_chunk (chunk : List Char) (htmlRes plainRes : Nat → TgRes) :
    List SendEvent × Except (TgErr × List Char) Unit :=
  let html := markdown_to_telegram_html chunk
  let r1 := retry_on_network_error false htmlRes
  let hsends := List.replicate r1.2.1 (SendEvent.sendHtml html)
  match r1.2.2 with
  | .ok _ => (hsends, .ok ())
  | .error e =>
    if isNetworkError e then
      let r2 := retry_on_network_error false plainRes
      let psends := List.replicate r2.2.1 (SendEvent.sendPlain chunk)
      match r2.2.2 with
      | .ok _ => (hsends ++ psends, .ok ())
      | .error e2 =>
        if isNetworkError e2 then (hsends ++ psends, .error (.netErr, resendMsg))
        else (hsends ++ psends, .error (e2, []))
    else
      match plainRes 0 with
      | .ok => (hsends ++ [SendEvent.sendPlain chunk], .ok ())
      | .err e2 => (hsends ++ [SendEvent.sendPlain chunk], .error (e2, []))

deriving instance DecidableEq for Except

/-! ## Properties of the model

The theorems below settle the specification's claims (the `cN_…`
theorems, with their witnesses and counterexamples) together with the
supporting lemmas they rest on. -/

theorem splitFirstNl_none : ∀ {l : List Nat}, splitFirstNl l = none → 10 ∉ l := by
  intro l
  induction l with
  | nil => intro _ h; exact absurd h (List.not_mem_nil 10)
  | cons b rest ih =>
    intro h
    simp only [splitFirstNl] at h
    by_cases hb : b = 10
    · simp [hb] at h
    · simp only [hb, if_false] at h
      cases hs : splitFirstNl rest with
      | none =>
        intro hm
        rcases List.mem_cons.mp hm with h1 | h2
        · exact hb h1.symm
        · exact ih hs h2
      | some p => rw [hs] at h; simp at h

theorem splitFirstNl_some : ∀ {l a r : List Nat},
    splitFirstNl l = some (a, r) → l = a ++ 10 :: r ∧ 10 ∉ a := by
  intro l
  induction l with
  | nil => intro a r h; simp [splitFirstNl] at h
  | cons b rest ih =>
    intro a r h
    simp only [splitFirstNl] at h
    by_cases hb : b = 10
    · simp only [hb, if_true] at h
      obtain ⟨ha, hr⟩ := Prod.mk.injEq .. ▸ Option.some.injEq .. ▸ h
      subst hb
      cases h
      simp
    · simp only [hb, if_false] at h
      rcases Option.map_eq_some.mp h with ⟨⟨a', r'⟩, hsf, heq⟩
      obtain ⟨h1, h2⟩ := Prod.mk.injEq .. ▸ heq
      obtain ⟨hl, hn⟩ := ih hsf
      subst h1; subst h2
      constructor
      · simp [hl]
      · intro hm
        rcases List.mem_cons.mp hm with h1 | h2
        · exact hb h1.symm
        · exact hn h2

theorem splitFirstNl_some_length {l a r : List Nat}
    (h : splitFirstNl l = some (a, r)) : r.length < l.length := by
  have := (splitFirstNl_some h).1
  subst this
  simp
  omega

theorem drainLines_eq_none {buf : List Nat} (h : splitFirstNl buf = none) :
    drainLines buf = ([], buf) := by
  rw [drainLines, h]

theorem drainLines_eq_some {buf l rest : List Nat}
    (h : splitFirstNl buf = some (l, rest)) :
    drainLines buf = (l :: (drainLines rest).1, (drainLines rest).2) := by
  rw [drainLines, h]

theorem naiveSplitNl_ne_nil (l : List Nat) : naiveSplitNl l ≠ [] := by
  induction l with
  | nil => simp [naiveSplitNl]
  | cons b rest ih =>
    simp only [naiveSplitNl]
    by_cases hb : b = 10
    · simp [hb]
    · simp only [hb, if_false]
      cases hn : naiveSplitNl rest with
      | nil => simp
      | cons x xs => simp

theorem getLastD_default_irrel {α : Type} {l : List α} (h : l ≠ []) (d d' : α) :
    l.getLastD d = l.getLastD d' := by
  cases l with
  | nil => exact absurd rfl h
  | cons a as => rw [List.getLastD_cons, List.getLastD_cons]

theorem getLastD_append {α : Type} {ys : List α} (xs : List α) (h : ys ≠ []) (d : α) :
    (xs ++ ys).getLastD d = ys.getLastD d := by
  induction xs generalizing d with
  | nil => rfl
  | cons a xs ih =>
    rw [List.cons_append, List.getLastD_cons, ih a]
    exact getLastD_default_irrel h a d

/-- Every piece of a naive newline split is newline-free. -/
theorem naiveSplitNl_no_nl : ∀ {l : List Nat}, ∀ x ∈ naiveSplitNl l, 10 ∉ x := by
  intro l
  induction l with
  | nil => intro x hx; simp [naiveSplitNl] at hx; simp [hx]
  | cons b rest ih =>
    intro x hx
    simp only [naiveSplitNl] at hx
    by_cases hb : b = 10
    · simp only [hb, if_true, List.mem_cons] at hx
      rcases hx with h1 | h2
      · simp [h1]
      · exact ih x h2
    · simp only [hb, if_false] at hx
      cases hn : naiveSplitNl rest with
      | nil => exact absurd hn (naiveSplitNl_ne_nil rest)
      | cons y ys =>
        rw [hn] at hx
        rcases List.mem_cons.mp hx with h1 | h2
        · subst h1
          intro hm
          rcases List.mem_cons.mp hm with h1 | h2
          · exact hb h1.symm
          · exact ih y (by rw [hn]; exact List.mem_cons_self y ys) h2
        · exact ih x (by rw [hn]; exact List.mem_cons_of_mem y h2)

/-- A newline-free byte string splits to itself. -/
theorem naiveSplitNl_of_no_nl : ∀ {l : List Nat}, 10 ∉ l → naiveSplitNl l = [l] := by
  intro l
  induction l with
  | nil => intro _; rfl
  | cons b rest ih =>
    intro h
    have hb : b ≠ 10 := fun hb => h (hb ▸ List.mem_cons_self b rest)
    have hr : 10 ∉ rest := fun hm => h (List.mem_cons.mpr (Or.inr hm))
    simp only [naiveSplitNl, hb, if_false, ih hr]

/-- Splitting across an explicit newline. -/
theorem naiveSplitNl_append {a : List Nat} (r : List Nat) (h : 10 ∉ a) :
    naiveSplitNl (a ++ 10 :: r) = a :: naiveSplitNl r := by
  induction a with
  | nil => simp [naiveSplitNl]
  | cons b bs ih =>
    have hb : b ≠ 10 := fun hb => h (hb ▸ List.mem_cons_self b bs)
    have hbs : 10 ∉ bs := fun hm => h (List.mem_cons.mpr (Or.inr hm))
    rw [List.cons_append]
    simp only [naiveSplitNl, hb, if_false, ih hbs]

/-- `drainLines` in terms of the naive split: it yields every piece but
the last, and the last piece is the leftover partial line. -/
theorem drainLines_char : ∀ (n : Nat) (buf : List Nat), buf.length ≤ n →
    drainLines buf = ((naiveSplitNl buf).dropLast, (naiveSplitNl buf).getLastD []) := by
  intro n
  induction n with
  | zero =>
    intro buf h
    have : buf = [] := List.length_eq_zero.mp (Nat.le_zero.mp h)
    subst this
    rw [drainLines_eq_none (show splitFirstNl [] = none from rfl)]
    rfl
  | succ n ih =>
    intro buf h
    cases hs : splitFirstNl buf with
    | none =>
      rw [drainLines_eq_none hs, naiveSplitNl_of_no_nl (splitFirstNl_none hs)]
      rfl
    | some p =>
      obtain ⟨l, rest⟩ := p
      obtain ⟨hb, hnl⟩ := splitFirstNl_some hs
      have hlen : rest.length ≤ n := by
        have := splitFirstNl_some_length hs
        omega
      rw [drainLines_eq_some hs, ih rest hlen, hb, naiveSplitNl_append rest hnl]
      have hne := naiveSplitNl_ne_nil rest
      have h1 : (l :: naiveSplitNl rest).dropLast = l :: (naiveSplitNl rest).dropLast := by
        cases hr : naiveSplitNl rest with
        | nil => exact absurd hr hne
        | cons y ys => rw [List.dropLast_cons₂]
      have h2 : (l :: naiveSplitNl rest).getLastD [] = (naiveSplitNl rest).getLastD [] := by
        rw [List.getLastD_cons]
        exact getLastD_default_irrel hne l []
      rw [h1, h2]

theorem splitFirstNl_append {l : List Nat} (z : List Nat) (h : 10 ∉ l) :
    splitFirstNl (l ++ 10 :: z) = some (l, z) := by
  induction l with
  | nil => simp [splitFirstNl]
  | cons b bs ih =>
    have hb : b ≠ 10 := fun hb => h (hb ▸ List.mem_cons_self b bs)
    have hbs : 10 ∉ bs := fun hm => h (List.mem_cons.mpr (Or.inr hm))
    rw [List.cons_append]
    simp only [splitFirstNl, hb, if_false, ih hbs, Option.map]

/-- Draining a concatenation: first drain the left part, then drain its
leftover followed by the right part.  This is exactly what the read loop
of `call_claude` does across chunk boundaries. -/
theorem drain_append : ∀ (n : Nat) (x : List Nat), x.length ≤ n → ∀ (y : List Nat),
    drainLines (x ++ y) =
      ((drainLines x).1 ++ (drainLines ((drainLines x).2 ++ y)).1,
       (drainLines ((drainLines x).2 ++ y)).2) := by
  intro n
  induction n with
  | zero =>
    intro x hx y
    have : x = [] := List.length_eq_zero.mp (Nat.le_zero.mp hx)
    subst this
    rw [drainLines_eq_none (show splitFirstNl [] = none from rfl)]
    rfl
  | succ n ih =>
    intro x hx y
    cases hs : splitFirstNl x with
    | none =>
      rw [drainLines_eq_none hs]
      rfl
    | some p =>
      obtain ⟨l, rest⟩ := p
      obtain ⟨hb, hnl⟩ := splitFirstNl_some hs
      have hlen : rest.length ≤ n := by
        have := splitFirstNl_some_length hs
        omega
      have hxy : x ++ y = l ++ 10 :: (rest ++ y) := by rw [hb]; simp
      rw [hxy, drainLines_eq_some (splitFirstNl_append (rest ++ y) hnl),
        drainLines_eq_some hs, ih rest hlen y]
      rfl

theorem processLines_lineRecorder (ls : List (List Nat)) : ∀ acc,
    processLines lineRecorder acc ls = .ok (acc ++ ls) := by
  induction ls with
  | nil => intro acc; simp [processLines]
  | cons l ls ih =>
    intro acc
    simp [processLines, lineRecorder, ih]

theorem eofFinish_lineRecorder (acc : List (List Nat)) (buf : List Nat) :
    eofFinish lineRecorder acc buf =
      LoopExit.streamEnd (acc ++ if stripBytes buf ≠ [] then [buf] else []) := by
  unfold eofFinish lineRecorder
  by_cases h : stripBytes buf ≠ []
  · simp [h]
  · simp [h]

theorem getLastD_mem {α : Type} : ∀ (l : List α) (d : α), l ≠ [] → l.getLastD d ∈ l := by
  intro l
  induction l with
  | nil => intro d h; exact absurd rfl h
  | cons a as ih =>
    intro d _
    rw [List.getLastD_cons]
    cases has : as with
    | nil => simp [List.getLastD]
    | cons b bs =>
      exact List.mem_cons_of_mem a (has ▸ ih a (by simp [has]))

/-- The leftover partial line after draining is newline-free. -/
theorem drainLines_snd_no_nl (buf : List Nat) : 10 ∉ (drainLines buf).2 := by
  rw [drainLines_char buf.length buf le_rfl]
  exact naiveSplitNl_no_nl _ (getLastD_mem _ _ (naiveSplitNl_ne_nil buf))

/-- Under no time pressure and with no empty chunk, the read loop is a
pure fold of `drainLines` over the chunks followed by the
trailing-partial-line step. -/
theorem callLoop_recorder : ∀ (chunks : List (List Nat)), [] ∉ chunks →
    ∀ (acc : List (List Nat)) (buf : List Nat), 10 ∉ buf →
    callLoop 1 none lineRecorder 0 acc buf (chunks.map (fun c => (0, c))) =
      LoopExit.streamEnd
        (acc ++ (drainLines (buf ++ chunks.flatten)).1 ++
          (if stripBytes (drainLines (buf ++ chunks.flatten)).2 ≠ [] then
            [(drainLines (buf ++ chunks.flatten)).2] else [])) := by
  intro chunks
  induction chunks with
  | nil =>
    intro _ acc buf hbuf
    simp only [List.map_nil, List.flatten_nil, List.append_nil]
    rw [callLoop, if_neg (by omega), eofFinish_lineRecorder]
    rw [drainLines_eq_none (by
      cases hs : splitFirstNl buf with
      | none => rfl
      | some p =>
        obtain ⟨l, rest⟩ := p
        exact absurd ((splitFirstNl_some hs).1 ▸ List.mem_append_right l
          (List.mem_cons_self 10 rest)) hbuf)]
    simp
  | cons c cs ih =>
    intro hmem acc buf hbuf
    have hc : c ≠ [] := fun h => hmem (h ▸ List.mem_cons_self c cs)
    have hcs : [] ∉ cs := fun h => hmem (List.mem_cons_of_mem c h)
    rw [List.map_cons, callLoop, if_neg (by omega), if_neg (by omega), if_neg hc,
      processLines_lineRecorder]
    show callLoop 1 none lineRecorder (0 + 0) (acc ++ (drainLines (buf ++ c)).1)
        (drainLines (buf ++ c)).2 (cs.map (fun c => (0, c))) = _
    rw [Nat.add_zero, ih hcs _ _ (drainLines_snd_no_nl (buf ++ c))]
    rw [List.flatten_cons, ← List.append_assoc,
      drain_append (buf ++ c).length (buf ++ c) le_rfl cs.flatten]
    simp [List.append_assoc]

/-- C1 (amended).  For every byte stream and every partition of it into
(non-empty) chunks, the line-framing loop in `call_claude` feeds
`_process_line` exactly the pieces of the naive newline split of the
concatenated stream except the final piece, followed by that final
partial piece exactly once if it is non-empty after stripping ASCII
whitespace (it is dropped when it consists only of whitespace). -/
theorem c1_line_framer (chunks : List (List Nat)) (h : [] ∉ chunks) :
    feedStream chunks =
      (naiveSplitNl chunks.flatten).dropLast ++
        (if stripBytes ((naiveSplitNl chunks.flatten).getLastD []) ≠ [] then
          [(naiveSplitNl chunks.flatten).getLastD []] else []) := by
  unfold feedStream
  rw [callLoop_recorder chunks h [] [] (by simp)]
  simp only [List.nil_append]
  rw [drainLines_char chunks.flatten.length _ le_rfl]

/-- C1 witness: a concrete chunking, with the trailing partial line kept. -/
theorem c1_line_framer_witness :
    ([] ∉ [[97, 10], [32, 98]]) ∧
      feedStream [[97, 10], [32, 98]] = [[97], [32, 98]] :=
  ⟨by decide, (c1_line_framer [[97, 10], [32, 98]] (by decide)).trans (by decide)⟩

/-- C1 counterexample to the claim as stated: for the stream consisting
of a single space byte (one chunk), the trailing partial line `[32]` is
non-empty, yet `_process_line` is fed nothing at all — neither the naive
split `[[32]]` nor the one-time final partial line appears, because
`call_claude` guards the final line with `buf.strip()`. -/
theorem c1_line_framer_counterexample :
    feedStream [[32]] = [] ∧ naiveSplitNl [32] = [[32]] ∧ ([32] : List Nat) ≠ [] := by
  refine ⟨?_, by decide, by decide⟩
  unfold feedStream
  rw [callLoop_recorder [[32]] (by decide) [] [] (by decide)]
  rw [drainLines_eq_none (by decide)]
  decide

theorem get_nil (k : Int) : get_session_id [] k = none := rfl

theorem get_cons (p : Int × List Char) (ps : Store) (k : Int) :
    get_session_id (p :: ps) k = if p.1 = k then some p.2 else get_session_id ps k := by
  by_cases hp : p.1 = k
  · show (List.find? (fun q => q.1 == k) (p :: ps)).map Prod.snd = _
    rw [List.find?_cons_of_pos _ (by simp [hp]), if_pos hp]
    rfl
  · show (List.find? (fun q => q.1 == k) (p :: ps)).map Prod.snd = _
    rw [List.find?_cons_of_neg _ (by simp [hp]), if_neg hp]
    rfl

theorem set_cons_pos {p : Int × List Char} {k : Int} (ps : Store) (v : List Char)
    (hp : p.1 = k) : set_session_id (p :: ps) k v = (k, v) :: ps := by
  show (if p.1 == k then _ else _) = _
  rw [if_pos (by simp [hp])]

theorem set_cons_neg {p : Int × List Char} {k : Int} (ps : Store) (v : List Char)
    (hp : ¬ p.1 = k) : set_session_id (p :: ps) k v = p :: set_session_id ps k v := by
  show (if p.1 == k then _ else _) = _
  rw [if_neg (by simp [hp])]

theorem clear_cons (p : Int × List Char) (ps : Store) (k : Int) :
    clear_session (p :: ps) k =
      if p.1 = k then clear_session ps k else p :: clear_session ps k := by
  show List.filter (fun q => q.1 != k) (p :: ps) = _
  rw [List.filter_cons]
  by_cases hp : p.1 = k
  · rw [if_neg (by simp [hp]), if_pos hp]
    rfl
  · rw [if_pos (by simp [hp]), if_neg hp]
    rfl

theorem get_set_same (m : Store) (k : Int) (v : List Char) :
    get_session_id (set_session_id m k v) k = some v := by
  induction m with
  | nil => simp [set_session_id, get_cons]
  | cons p ps ih =>
    by_cases hp : p.1 = k
    · rw [set_cons_pos ps v hp, get_cons, if_pos rfl]
    · rw [set_cons_neg ps v hp, get_cons, if_neg hp]
      exact ih

theorem get_set_other (m : Store) (k k' : Int) (v : List Char) (h : k' ≠ k) :
    get_session_id (set_session_id m k v) k' = get_session_id m k' := by
  induction m with
  | nil => simp [set_session_id, get_cons, Ne.symm h, get_nil]
  | cons p ps ih =>
    by_cases hp : p.1 = k
    · rw [set_cons_pos ps v hp, get_cons, if_neg (Ne.symm h), get_cons,
        if_neg (fun he => h (by rw [← he]; exact hp))]
    · rw [set_cons_neg ps v hp, get_cons, get_cons, ih]

theorem set_mem_keys : ∀ (m : Store) (k : Int) (v : List Char) (q : Int × List Char),
    q ∈ set_session_id m k v → q.1 = k ∨ q ∈ m := by
  intro m k v
  induction m with
  | nil =>
    intro q hq
    rcases List.mem_singleton.mp hq with h
    exact Or.inl (by rw [h])
  | cons p ps ih =>
    intro q hq
    by_cases hp : p.1 = k
    · rw [set_cons_pos ps v hp] at hq
      rcases List.mem_cons.mp hq with h1 | h2
      · exact Or.inl (by rw [h1])
      · exact Or.inr (List.mem_cons_of_mem p h2)
    · rw [set_cons_neg ps v hp] at hq
      rcases List.mem_cons.mp hq with h1 | h2
      · exact Or.inr (h1 ▸ List.mem_cons_self p ps)
      · rcases ih q h2 with h3 | h4
        · exact Or.inl h3
        · exact Or.inr (List.mem_cons_of_mem p h4)

theorem set_keys_nodup (m : Store) (k : Int) (v : List Char)
    (h : (m.map Prod.fst).Nodup) :
    ((set_session_id m k v).map Prod.fst).Nodup := by
  induction m with
  | nil => simp [set_session_id]
  | cons p ps ih =>
    simp only [List.map_cons, List.nodup_cons] at h
    by_cases hp : p.1 = k
    · rw [set_cons_pos ps v hp, List.map_cons, List.nodup_cons]
      exact ⟨fun hm => h.1 (hp ▸ hm), h.2⟩
    · rw [set_cons_neg ps v hp, List.map_cons, List.nodup_cons]
      refine ⟨?_, ih h.2⟩
      intro hmem
      rcases List.mem_map.mp hmem with ⟨q, hq, hfst⟩
      rcases set_mem_keys ps k v q hq with h1 | h2
      · exact hp (hfst ▸ h1 ▸ rfl)
      · exact h.1 (hfst ▸ List.mem_map_of_mem Prod.fst h2)

theorem get_clear_same (m : Store) (k : Int) :
    get_session_id (clear_session m k) k = none := by
  induction m with
  | nil => rfl
  | cons p ps ih =>
    rw [clear_cons]
    by_cases hp : p.1 = k
    · rw [if_pos hp]
      exact ih
    · rw [if_neg hp, get_cons, if_neg hp]
      exact ih

theorem get_clear_other (m : Store) (k k' : Int) (h : k' ≠ k) :
    get_session_id (clear_session m k) k' = get_session_id m k' := by
  induction m with
  | nil => rfl
  | cons p ps ih =>
    rw [clear_cons]
    by_cases hp : p.1 = k
    · rw [if_pos hp, get_cons, if_neg (fun he => h (by rw [← he]; exact hp))]
      exact ih
    · rw [if_neg hp, get_cons, get_cons, ih]

/-- C10.  Writing a session id for one chat returns it on the next read,
leaves every other chat's stored value untouched, and keeps at most one
record per chat id (no duplicate keys). -/
theorem c10_session_store (m : Store) (c c' : Int) (s : List Char)
    (hnd : (m.map Prod.fst).Nodup) (hne : c' ≠ c) :
    get_session_id (set_session_id m c s) c = some s ∧
      get_session_id (set_session_id m c s) c' = get_session_id m c' ∧
      ((set_session_id m c s).map Prod.fst).Nodup :=
  ⟨get_set_same m c s, get_set_other m c c' s hne, set_keys_nodup m c s hnd⟩

/-- C10 witness at a concrete store. -/
theorem c10_session_store_witness :
    (([(1, ['a'])] : Store).map Prod.fst).Nodup ∧ (2 : Int) ≠ 1 ∧
      get_session_id (set_session_id [(1, ['a'])] 1 ['b']) 1 = some ['b'] ∧
      get_session_id (set_session_id [(1, ['a'])] 1 ['b']) 2 = get_session_id [(1, ['a'])] 2 ∧
      ((set_session_id [(1, ['a'])] 1 ['b']).map Prod.fst).Nodup := by
  have h := c10_session_store [(1, ['a'])] 1 2 ['b'] (by decide) (by decide)
  exact ⟨by decide, by decide, h.1, h.2.1, h.2.2⟩

theorem isPrefixOf_append_left {α : Type} [BEq α] (p x y : List α)
    (h : p.length ≤ x.length) : p.isPrefixOf (x ++ y) = p.isPrefixOf x := by
  induction p generalizing x with
  | nil => simp [List.isPrefixOf]
  | cons a as ih =>
    cases x with
    | nil => simp at h
    | cons b bs =>
      simp only [List.cons_append, List.isPrefixOf, List.append_eq]
      rw [ih bs (by simpa using h)]

/-- A timeout result text never looks like an agent error. -/
theorem errPfx_timeoutMsg (T : Nat) :
    claudeErrPfx.isPrefixOf (timeoutMsg T) = false := by
  unfold timeoutMsg
  rw [List.append_assoc,
    isPrefixOf_append_left claudeErrPfx (("Claude timed out after ").toList)
      (natToChars T ++ ("s. Try a simpler request.").toList) (by decide)]
  decide

/-- An agent-error result text always starts with `"Claude error"`. -/
theorem errPfx_errMsg (code stderr : List Char) :
    claudeErrPfx.isPrefixOf (errMsg code stderr) = true := by
  unfold errMsg
  rw [List.append_assoc, List.append_assoc,
    isPrefixOf_append_left claudeErrPfx (("Claude error (exit code ").toList)
      (code ++ (("):\n").toList ++ stderr.take 500)) (by decide)]
  decide

/-- An empty-response result text never looks like an agent error. -/
theorem errPfx_emptyMsg : claudeErrPfx.isPrefixOf emptyMsg = false := by
  decide

theorem truthy_eq_some {o : Option (List Char)} (h : truthy o = true) :
    o = some (o.getD []) := by
  cases o with
  | none => simp [truthy] at h
  | some s => rfl

/-- C2 (amended).  A second invocation happens if and only if a truthy
stored session id was used for the first one and the first result text
starts with `"Claude error"` — which every agent-error outcome does, but
so does a success outcome whose text happens to begin with that prefix;
the second invocation is passed no session id and is the last one;
timeout and empty-response outcomes never trigger a retry; afterwards
the stored session id is the second invocation's returned id when a
retry happened (or cleared when that id is not truthy), else the first
invocation's returned id when truthy (else the previous stored value). -/
theorem c2_retry_controller (T : Nat) (store : Store) (c : Int) (o1 o2 : Outcome) :
    ((call_claude_with_retry T store c o1 o2).calls =
      if truthy (get_session_id store c) &&
          claudeErrPfx.isPrefixOf (runOutcome T (get_session_id store c) o1).text then
        [get_session_id store c, none] else [get_session_id store c]) ∧
    (∀ code stderr, o1 = Outcome.agentError code stderr →
      truthy (get_session_id store c) = true →
      (call_claude_with_retry T store c o1 o2).calls = [get_session_id store c, none]) ∧
    ((o1 = Outcome.timeout ∨ ∃ s, o1 = Outcome.empty s) →
      (call_claude_with_retry T store c o1 o2).calls = [get_session_id store c]) ∧
    ((call_claude_with_retry T store c o1 o2).calls.length = 2 →
      get_session_id (call_claude_with_retry T store c o1 o2).store c =
        (if truthy (runOutcome T none o2).sid then (runOutcome T none o2).sid else none)) ∧
    ((call_claude_with_retry T store c o1 o2).calls.length = 1 →
      get_session_id (call_claude_with_retry T store c o1 o2).store c =
        (if truthy (runOutcome T (get_session_id store c) o1).sid
          then (runOutcome T (get_session_id store c) o1).sid
          else get_session_id store c)) := by
  unfold call_claude_with_retry
  by_cases hcond : (truthy (get_session_id store c) &&
      claudeErrPfx.isPrefixOf (runOutcome T (get_session_id store c) o1).text) = true
  · rw [if_pos hcond]
    refine ⟨by rw [if_pos hcond], fun code stderr h1 h2 => rfl, ?_, ?_, ?_⟩
    · intro hor
      exfalso
      rcases hor with h | ⟨s, h⟩
      · subst h
        simp [runOutcome, errPfx_timeoutMsg T] at hcond
      · subst h
        simp [runOutcome, errPfx_emptyMsg] at hcond
    · intro _
      show get_session_id (if truthy (runOutcome T none o2).sid = true then
          set_session_id (clear_session store c) c ((runOutcome T none o2).sid.getD [])
        else clear_session store c) c =
        (if truthy (runOutcome T none o2).sid = true then (runOutcome T none o2).sid else none)
      by_cases h2 : truthy (runOutcome T none o2).sid = true
      · rw [if_pos h2, if_pos h2,
          get_set_same (clear_session store c) c ((runOutcome T none o2).sid.getD [])]
        exact (truthy_eq_some h2).symm
      · rw [if_neg h2, if_neg h2]
        exact get_clear_same store c
    · intro hlen
      simp at hlen
  · rw [if_neg hcond]
    refine ⟨by rw [if_neg hcond], ?_, fun _ => rfl, ?_, ?_⟩
    · intro code stderr h1 h2
      exfalso
      apply hcond
      subst h1
      simp [runOutcome, errPfx_errMsg, h2]
    · intro hlen
      simp at hlen
    · intro _
      show get_session_id (if truthy (runOutcome T (get_session_id store c) o1).sid = true then
          set_session_id store c ((runOutcome T (get_session_id store c) o1).sid.getD [])
        else store) c =
        (if truthy (runOutcome T (get_session_id store c) o1).sid = true then
          (runOutcome T (get_session_id store c) o1).sid
        else get_session_id store c)
      by_cases h2 : truthy (runOutcome T (get_session_id store c) o1).sid = true
      · rw [if_pos h2, if_pos h2,
          get_set_same store c ((runOutcome T (get_session_id store c) o1).sid.getD [])]
        exact (truthy_eq_some h2).symm
      · rw [if_neg h2, if_neg h2]

/-- C2 witness: stored id `"s"`, agent-error first outcome, successful
second outcome returning id `"u"`: one sessionless retry, `"u"` stored. -/
theorem c2_retry_controller_witness :
    (call_claude_with_retry 300 [(1, ['s'])] 1 (Outcome.agentError ['1'] ['x'])
        (Outcome.success ['o'] (some ['u']))).calls = [some ['s'], none] ∧
      get_session_id (call_claude_with_retry 300 [(1, ['s'])] 1
        (Outcome.agentError ['1'] ['x']) (Outcome.success ['o'] (some ['u']))).store 1 =
        some ['u'] := by
  have h := c2_retry_controller 300 [(1, ['s'])] 1 (Outcome.agentError ['1'] ['x'])
    (Outcome.success ['o'] (some ['u']))
  have hcalls := h.2.1 ['1'] ['x'] rfl (by decide)
  constructor
  · rw [hcalls]
    decide
  · have hlen : (call_claude_with_retry 300 [(1, ['s'])] 1 (Outcome.agentError ['1'] ['x'])
        (Outcome.success ['o'] (some ['u']))).calls.length = 2 := by
      rw [hcalls]
      rfl
    rw [h.2.2.2.1 hlen]
    decide

/-- C2 counterexample to the claim as stated, two parts.  (1) With
stored id `"s"` and two agent-error invocations, the first (and last)
invocation to carry a non-empty session id carries `"s"`, yet afterwards
nothing is persisted — the store was cleared, not restored to `"s"`.
(2) A first invocation whose outcome is a *success* whose text merely
starts with `"Claude error"` still triggers the retry, so the retry
condition is not equivalent to the outcome being an agent error. -/
theorem c2_retry_controller_counterexample :
    ((call_claude_with_retry 300 [(1, ['s'])] 1 (Outcome.agentError ['1'] ['b'])
        (Outcome.agentError ['1'] ['b'])).calls.length = 2 ∧
      (runOutcome 300 (get_session_id [(1, ['s'])] 1) (Outcome.agentError ['1'] ['b'])).sid =
        some ['s'] ∧
      get_session_id (call_claude_with_retry 300 [(1, ['s'])] 1
        (Outcome.agentError ['1'] ['b']) (Outcome.agentError ['1'] ['b'])).store 1 = none) ∧
    (call_claude_with_retry 300 [(1, ['s'])] 1
        (Outcome.success (("Claude error? not really").toList) (some ['t']))
        (Outcome.success ['o'] (some ['u']))).calls.length = 2 := by
  decide

/-- Every timed-out exit of the read loop carries the kill/drain flags,
the fixed message, and the original session id. -/
theorem callLoop_timedOut (T : Nat) (sid0 : Option (List Char)) {σ : Type}
    (proc : σ → List Nat → Except Unit σ) :
    ∀ (reads : List (Nat × List Nat)) (elapsed : Nat) (st : σ) (buf : List Nat)
      (k d : Bool) (m : List Char) (s : Option (List Char)),
    callLoop T sid0 proc elapsed st buf reads = LoopExit.timedOut k d m s →
    k = true ∧ d = true ∧ m = timeoutMsg T ∧ s = sid0 := by
  intro reads
  induction reads with
  | nil =>
    intro elapsed st buf k d m s h
    rw [callLoop] at h
    by_cases ht : T ≤ elapsed
    · rw [if_pos ht] at h
      cases h
      exact ⟨rfl, rfl, rfl, rfl⟩
    · rw [if_neg ht] at h
      unfold eofFinish at h
      cases hres : (if stripBytes buf ≠ [] then proc st buf else Except.ok st) with
      | error e => rw [hres] at h; cases h
      | ok st' => rw [hres] at h; cases h
  | cons r rest ih =>
    intro elapsed st buf k d m s h
    obtain ⟨rd, rchunk⟩ := r
    rw [callLoop] at h
    by_cases ht : T ≤ elapsed
    · rw [if_pos ht] at h
      cases h
      exact ⟨rfl, rfl, rfl, rfl⟩
    · rw [if_neg ht] at h
      by_cases ht2 : T - elapsed < rd
      · rw [if_pos ht2] at h
        cases h
        exact ⟨rfl, rfl, rfl, rfl⟩
      · rw [if_neg ht2] at h
        by_cases hch : rchunk = []
        · rw [if_pos hch] at h
          unfold eofFinish at h
          cases hres : (if stripBytes buf ≠ [] then proc st buf else Except.ok st) with
          | error e => rw [hres] at h; cases h
          | ok st' => rw [hres] at h; cases h
        · rw [if_neg hch] at h
          cases hres : processLines proc st (drainLines (buf ++ rchunk)).1 with
          | error e => rw [hres] at h; cases h
          | ok st' =>
            rw [hres] at h
            exact ih _ _ _ _ _ _ _ h

/-- The retry controller never changes any stored value on a timeout
outcome: the prefix test fails, so there is no clear, and the persisted
id is the passed-through stored id itself (or nothing). -/
theorem retry_timeout_store_unchanged (T : Nat) (store : Store) (c : Int) (o2 : Outcome)
    (c' : Int) :
    get_session_id (call_claude_with_retry T store c Outcome.timeout o2).store c' =
      get_session_id store c' := by
  unfold call_claude_with_retry
  rw [if_neg (by simp [runOutcome, errPfx_timeoutMsg T])]
  show get_session_id (if truthy (runOutcome T (get_session_id store c) Outcome.timeout).sid
      = true then
        set_session_id store c
          ((runOutcome T (get_session_id store c) Outcome.timeout).sid.getD [])
      else store) c' = get_session_id store c'
  by_cases h2 : truthy (runOutcome T (get_session_id store c) Outcome.timeout).sid = true
  · rw [if_pos h2]
    by_cases hc : c' = c
    · subst hc
      rw [get_set_same]
      exact (truthy_eq_some h2).symm
    · rw [get_set_other store c c' _ hc]
  · rw [if_neg h2]

/-- C4.  Whenever the read loop of `call_claude` exits through either
timeout path (the deadline check at the top of an iteration, or a read
outliving the remaining time), the process was killed and drained, the
returned text is the fixed timed-out message, the returned session id is
the original `session_id` argument, and running the retry controller on
a timeout outcome leaves every stored session id's value unchanged. -/
theorem c4_timeout_outcome (T : Nat) (sid0 : Option (List Char)) {σ : Type}
    (proc : σ → List Nat → Except Unit σ) (elapsed : Nat) (st : σ) (buf : List Nat)
    (reads : List (Nat × List Nat)) (k d : Bool) (m : List Char) (s : Option (List Char))
    (h : callLoop T sid0 proc elapsed st buf reads = LoopExit.timedOut k d m s)
    (store : Store) (c : Int) (o2 : Outcome) :
    k = true ∧ d = true ∧ m = timeoutMsg T ∧ s = sid0 ∧
      ∀ c', get_session_id (call_claude_with_retry T store c Outcome.timeout o2).store c' =
        get_session_id store c' := by
  obtain ⟨h1, h2, h3, h4⟩ := callLoop_timedOut T sid0 proc reads elapsed st buf k d m s h
  exact ⟨h1, h2, h3, h4, fun c' => retry_timeout_store_unchanged T store c o2 c'⟩

/-- C4 witness: a five-second budget and a ten-second read time out. -/
theorem c4_timeout_outcome_witness :
    (callLoop 5 (some ['s']) (fun (st : Unit) _ => Except.ok st) 0 () [] [(10, [65])] =
      LoopExit.timedOut true true (timeoutMsg 5) (some ['s'])) ∧
      get_session_id (call_claude_with_retry 5 [(1, ['s'])] 1 Outcome.timeout
        (Outcome.success ['o'] (some ['u']))).store 1 = some ['s'] := by
  have hrun : callLoop 5 (some ['s']) (fun (st : Unit) _ => Except.ok st) 0 () [] [(10, [65])] =
      LoopExit.timedOut true true (timeoutMsg 5) (some ['s']) := by
    rw [callLoop, if_neg (by omega), if_pos (by omega)]
  have h := c4_timeout_outcome 5 (some ['s']) (fun (st : Unit) _ => Except.ok st) 0 () []
    [(10, [65])] true true (timeoutMsg 5) (some ['s']) hrun [(1, ['s'])] 1
    (Outcome.success ['o'] (some ['u']))
  refine ⟨hrun, ?_⟩
  rw [h.2.2.2.2 1]
  decide

/-- C3 (amended).  A blank or JSON-undecodable line is skipped without
signalling an error and without touching the state, but a line whose
bytes fail text decoding raises an uncaught error that aborts the
invocation — it is not treated as an empty line. -/
theorem c3_process_line (parse : List Char → Option EventData) (st : PLState)
    (raw : List Nat) :
    (utf8Decode raw = none → process_line parse st raw = Except.error ()) ∧
      (∀ cs, utf8Decode raw = some cs → stripChars cs = [] →
        process_line parse st raw = Except.ok st) ∧
      (∀ cs, utf8Decode raw = some cs → parse (stripChars cs) = none →
        process_line parse st raw = Except.ok st) := by
  refine ⟨?_, ?_, ?_⟩
  · intro h
    unfold process_line
    rw [h]
  · intro cs h hblank
    unfold process_line
    rw [h]
    simp [hblank]
  · intro cs h hparse
    unfold process_line
    rw [h]
    by_cases hblank : stripChars cs = []
    · simp [hblank]
    · simp [hblank, hparse]

/-- C3 witness: an invalid byte errors, a blank line and an unparsable
line are skipped. -/
theorem c3_process_line_witness :
    (utf8Decode [255] = none ∧
      process_line (fun _ => none) ⟨[], none⟩ [255] = Except.error ()) ∧
      (utf8Decode [32] = some [' '] ∧ stripChars [' '] = [] ∧
        process_line (fun _ => none) ⟨[], none⟩ [32] = Except.ok ⟨[], none⟩) ∧
      (utf8Decode [97] = some ['a'] ∧ (fun (_ : List Char) => none (α := EventData)) ['a'] = none ∧
        process_line (fun _ => none) ⟨[], none⟩ [97] = Except.ok ⟨[], none⟩) := by
  refine ⟨⟨by decide, ?_⟩, ⟨by decide, by decide, ?_⟩, ⟨by decide, rfl, ?_⟩⟩
  · exact (c3_process_line (fun _ => none) ⟨[], none⟩ [255]).1 (by decide)
  · exact (c3_process_line (fun _ => none) ⟨[], none⟩ [32]).2.1 [' '] (by decide) (by decide)
  · exact (c3_process_line (fun _ => none) ⟨[], none⟩ [97]).2.2 ['a'] (by decide) rfl

/-- C3 counterexample to the claim as stated: the single byte `0xFF`
fails text decoding, and `_process_line` raises instead of treating it
as an empty line — the invocation is aborted, not continued. -/
theorem c3_process_line_counterexample :
    process_line (fun _ => none) ⟨[], none⟩ [255] = Except.error () ∧
      utf8Decode [255] = none ∧
      process_line (fun _ => none) ⟨[], none⟩ [255] ≠ Except.ok ⟨[], none⟩ := by
  refine ⟨?_, by decide, ?_⟩
  · unfold process_line
    rfl
  · unfold process_line
    intro h
    cases h

theorem throttleRun_cons_emit {last : ℚ} {e : ToolUse} (es : List ToolUse)
    (h1 : 8 ≤ e.t - last) (h2 : e.sendOk = true) :
    throttleRun last (e :: es) = e.t :: throttleRun e.t es := by
  have hstep : throttleStep last e = (e.t, some e.t) := by
    unfold throttleStep
    rw [if_pos h1, if_pos h2]
  show (match throttleStep last e with
    | (l', some t) => t :: throttleRun l' es
    | (l', none) => throttleRun l' es) = e.t :: throttleRun e.t es
  rw [hstep]

theorem throttleRun_cons_fail {last : ℚ} {e : ToolUse} (es : List ToolUse)
    (h1 : 8 ≤ e.t - last) (h2 : e.sendOk = false) :
    throttleRun last (e :: es) = throttleRun last es := by
  have hstep : throttleStep last e = (last, none) := by
    unfold throttleStep
    rw [if_pos h1, h2]
    rfl
  show (match throttleStep last e with
    | (l', some t) => t :: throttleRun l' es
    | (l', none) => throttleRun l' es) = throttleRun last es
  rw [hstep]

theorem throttleRun_cons_drop {last : ℚ} {e : ToolUse} (es : List ToolUse)
    (h1 : ¬ 8 ≤ e.t - last) :
    throttleRun last (e :: es) = throttleRun last es := by
  have hstep : throttleStep last e = (last, none) := by
    unfold throttleStep
    rw [if_neg h1]
  show (match throttleStep last e with
    | (l', some t) => t :: throttleRun l' es
    | (l', none) => throttleRun l' es) = throttleRun last es
  rw [hstep]

/-- Every emitted notice is at least a full throttle interval after the
`last_status_time` the run started from. -/
theorem throttleRun_lb : ∀ (es : List ToolUse) (last x : ℚ),
    x ∈ throttleRun last es → last + 8 ≤ x := by
  intro es
  induction es with
  | nil => intro last x h; simp [throttleRun] at h
  | cons e es ih =>
    intro last x h
    by_cases h1 : 8 ≤ e.t - last
    · cases h2 : e.sendOk with
      | true =>
        rw [throttleRun_cons_emit es h1 h2] at h
        rcases List.mem_cons.mp h with h3 | h3
        · subst h3
          linarith
        · have := ih e.t x h3
          linarith
      | false =>
        rw [throttleRun_cons_fail es h1 h2] at h
        exact ih last x h
    · rw [throttleRun_cons_drop es h1] at h
      exact ih last x h

theorem throttleRun_pairwise (es : List ToolUse) : ∀ (last : ℚ),
    List.Pairwise (fun a b => a + 8 ≤ b) (throttleRun last es) := by
  induction es with
  | nil => intro last; simp [throttleRun]
  | cons e es ih =>
    intro last
    by_cases h1 : 8 ≤ e.t - last
    · cases h2 : e.sendOk with
      | true =>
        rw [throttleRun_cons_emit es h1 h2]
        exact List.pairwise_cons.mpr ⟨fun x hx => throttleRun_lb es e.t x hx, ih e.t⟩
      | false =>
        rw [throttleRun_cons_fail es h1 h2]
        exact ih last
    · rw [throttleRun_cons_drop es h1]
      exact ih last

/-- C9.  Within one invocation, any two successfully emitted progress
notices are at least the 8-second throttle interval apart (in order of
emission, hence pairwise), and a tool-use block arriving before the
interval has elapsed since the last emitted notice produces nothing and
leaves the throttle state unchanged — it is dropped, not queued. -/
theorem c9_throttle (events : List ToolUse) :
    List.Pairwise (fun a b => a + 8 ≤ b) (throttleRun 0 events) ∧
      ∀ (last : ℚ) (e : ToolUse), e.t - last < 8 →
        throttleStep last e = (last, none) := by
  refine ⟨throttleRun_pairwise events 0, ?_⟩
  intro last e h
  unfold throttleStep
  rw [if_neg (by linarith)]

/-- C9 witness: a burst at times 0, 9, 12 emits at 9 and drops the
block at 12; a block 4 seconds after an emission is dropped. -/
theorem c9_throttle_witness :
    List.Pairwise (fun a b => a + 8 ≤ b)
      (throttleRun 0 [⟨0, true⟩, ⟨9, true⟩, ⟨12, true⟩]) ∧
      ((12 : ℚ) - 9 < 8 ∧ throttleStep 9 ⟨12, true⟩ = (9, none)) := by
  refine ⟨(c9_throttle [⟨0, true⟩, ⟨9, true⟩, ⟨12, true⟩]).1, by norm_num, ?_⟩
  exact (c9_throttle []).2 9 ⟨12, true⟩ (by norm_num)

theorem takeRun_length : ∀ (ls : List (List Char)),
    (takeRun ls).1.length + (takeRun ls).2.length = ls.length := by
  intro ls
  induction ls with
  | nil => rfl
  | cons l ls ih =>
    by_cases h : hasPipe l = true
    · simp only [takeRun, h, if_true, List.length_cons]
      omega
    · simp only [takeRun, h, if_false]
      simp

theorem takeRun_fst_ne_nil {l : List Char} (ls : List (List Char)) (h : hasPipe l = true) :
    (takeRun (l :: ls)).1 ≠ [] := by
  simp [takeRun, h]

theorem takeRun_eq (ls : List (List Char)) :
    takeRun ls = (ls.takeWhile hasPipe, ls.dropWhile hasPipe) := by
  induction ls with
  | nil => rfl
  | cons l ls ih =>
    by_cases h : hasPipe l = true
    · simp only [takeRun, h, if_true, List.takeWhile_cons, List.dropWhile_cons, ih]
    · simp only [takeRun, h, if_false, List.takeWhile_cons, List.dropWhile_cons]
      simp [h]

theorem extractTablesGo_eq_spec : ∀ (n : Nat) (lines : List (List Char)),
    lines.length ≤ n → ∀ tacc,
    extractTablesGo n tacc lines = extract_tables_spec_go tacc lines := by
  intro n
  induction n with
  | zero =>
    intro lines h tacc
    have : lines = [] := List.length_eq_zero.mp (Nat.le_zero.mp h)
    subst this
    rw [extractTablesGo, extract_tables_spec_go]
  | succ n ih =>
    intro lines hlen tacc
    cases lines with
    | nil => rw [extractTablesGo, extract_tables_spec_go]
    | cons l ls =>
      rw [extractTablesGo, extract_tables_spec_go]
      by_cases h : hasPipe l = true
      · simp only [h, dif_pos, takeRun_eq]
        have hrest : ((l :: ls).dropWhile hasPipe).length ≤ n := by
          have h1 := takeRun_length (l :: ls)
          rw [takeRun_eq] at h1
          have h2 : (l :: ls).takeWhile hasPipe ≠ [] := by
            simp [List.takeWhile_cons, h]
          have h3 : 1 ≤ ((l :: ls).takeWhile hasPipe).length := by
            cases hr : (l :: ls).takeWhile hasPipe with
            | nil => exact absurd hr h2
            | cons a as => simp
          simp only [List.length_cons] at h1
          simp only [List.length_cons] at hlen
          omega
        by_cases hc : 2 ≤ ((l :: ls).takeWhile hasPipe).length ∧
            ((l :: ls).takeWhile hasPipe).any isSeparatorLine = true
        · have hb : ((List.takeWhile hasPipe (l :: ls)).any isSeparatorLine &&
              decide (2 ≤ (List.takeWhile hasPipe (l :: ls)).length)) = true := by
            rw [Bool.and_eq_true, decide_eq_true_iff]
            exact ⟨hc.2, hc.1⟩
          rw [if_pos hb, if_pos hc, ih _ hrest]
          simp
        · have hb : ¬ (((List.takeWhile hasPipe (l :: ls)).any isSeparatorLine &&
              decide (2 ≤ (List.takeWhile hasPipe (l :: ls)).length)) = true) := by
            rw [Bool.and_eq_true, decide_eq_true_iff]
            intro hb
            exact hc ⟨hb.2, hb.1⟩
          rw [if_neg hb, if_neg hc, ih _ hrest]
          simp
      · simp only [h, dif_neg]
        rw [ih ls (by simp only [List.length_cons] at hlen; omega) tacc]
        simp [h]

theorem matchesAt_bound {sep s : List Char} {i : Nat} (hsep : sep ≠ [])
    (h : matchesAt sep s i = true) : i + sep.length ≤ s.length := by
  unfold matchesAt at h
  have hpre := List.isPrefixOf_iff_prefix.mp h
  have hle := hpre.length_le
  rw [List.length_drop] at hle
  have h1 : 1 ≤ sep.length := by
    cases sep with
    | nil => exact absurd rfl hsep
    | cons a as => simp
  omega

theorem rfindAux_some (sep s : List Char) : ∀ (start i : Nat),
    rfindAux sep s start = some i →
    matchesAt sep s i = true ∧ i ≤ start ∧
      ∀ j, j ≤ start → matchesAt sep s j = true → j ≤ i := by
  intro start
  induction start with
  | zero =>
    intro i h
    unfold rfindAux at h
    by_cases hm : matchesAt sep s 0 = true
    · rw [if_pos hm] at h
      cases h
      exact ⟨hm, le_rfl, fun j hj _ => hj⟩
    · rw [if_neg hm] at h
      cases h
  | succ n ih =>
    intro i h
    unfold rfindAux at h
    by_cases hm : matchesAt sep s (n + 1) = true
    · rw [if_pos hm] at h
      cases h
      exact ⟨hm, le_rfl, fun j hj _ => hj⟩
    · rw [if_neg hm] at h
      obtain ⟨h1, h2, h3⟩ := ih i h
      refine ⟨h1, by omega, ?_⟩
      intro j hj hmj
      rcases Nat.lt_or_ge j (n + 1) with hlt | hge
      · exact h3 j (by omega) hmj
      · have : j = n + 1 := by omega
        subst this
        exact absurd hmj hm

theorem rfindAux_none (sep s : List Char) : ∀ (start : Nat),
    rfindAux sep s start = none → ∀ j, j ≤ start → matchesAt sep s j = false := by
  intro start
  induction start with
  | zero =>
    intro h j hj
    unfold rfindAux at h
    by_cases hm : matchesAt sep s 0 = true
    · rw [if_pos hm] at h; cases h
    · have : j = 0 := by omega
      subst this
      simpa using hm
  | succ n ih =>
    intro h j hj
    unfold rfindAux at h
    by_cases hm : matchesAt sep s (n + 1) = true
    · rw [if_pos hm] at h; cases h
    · rw [if_neg hm] at h
      rcases Nat.lt_or_ge j (n + 1) with hlt | hge
      · exact ih h j (by omega)
      · have : j = n + 1 := by omega
        subst this
        simpa using hm

/-- `rfind` returns the latest occurrence that fits in the window. -/
theorem rfind_some {sep s : List Char} {e i : Nat} (hsep : sep ≠ [])
    (h : rfind sep s e = some i) :
    matchesAt sep s i = true ∧ i + sep.length ≤ e ∧
      ∀ j, matchesAt sep s j = true → j + sep.length ≤ e → j ≤ i := by
  unfold rfind at h
  by_cases hb : sep.length ≤ min e s.length
  · rw [if_pos hb] at h
    obtain ⟨h1, h2, h3⟩ := rfindAux_some sep s _ i h
    refine ⟨h1, by omega, ?_⟩
    intro j hmj hje
    have hjs := matchesAt_bound hsep hmj
    exact h3 j (by omega) hmj
  · rw [if_neg hb] at h
    cases h

theorem rfind_none {sep s : List Char} {e : Nat} (hsep : sep ≠ [])
    (h : rfind sep s e = none) :
    ∀ j, matchesAt sep s j = true → ¬ j + sep.length ≤ e := by
  unfold rfind at h
  by_cases hb : sep.length ≤ min e s.length
  · rw [if_pos hb] at h
    intro j hmj hje
    have hjs := matchesAt_bound hsep hmj
    have := rfindAux_none sep s _ h j (by omega)
    rw [hmj] at this
    cases this
  · rw [if_neg hb] at h
    intro j hmj hje
    have hjs := matchesAt_bound hsep hmj
    omega

theorem chooseSplitFrom_bounds : ∀ (seps : List (List Char)) (r : List Char),
    (∀ sep ∈ seps, sep ≠ []) →
    1 ≤ chooseSplitFrom seps r ∧ chooseSplitFrom seps r ≤ MAX_MSG_LEN := by
  intro seps
  induction seps with
  | nil =>
    intro r _
    unfold chooseSplitFrom
    exact ⟨by decide, le_rfl⟩
  | cons sep seps ih =>
    intro r hne
    have hsep : sep ≠ [] := hne sep (List.mem_cons_self sep seps)
    have hrest : ∀ q ∈ seps, q ≠ [] := fun q hq => hne q (List.mem_cons_of_mem sep hq)
    unfold chooseSplitFrom
    cases hr : rfind sep r MAX_MSG_LEN with
    | none => exact ih r hrest
    | some idx =>
      show (1 ≤ if 0 < idx then idx + sep.length else chooseSplitFrom seps r) ∧
        (if 0 < idx then idx + sep.length else chooseSplitFrom seps r) ≤ MAX_MSG_LEN
      by_cases hpos : 0 < idx
      · rw [if_pos hpos]
        obtain ⟨_, h2, _⟩ := rfind_some hsep hr
        exact ⟨by omega, h2⟩
      · rw [if_neg hpos]
        exact ih r hrest

theorem chooseSplit_bounds (r : List Char) :
    1 ≤ chooseSplit r ∧ chooseSplit r ≤ MAX_MSG_LEN :=
  chooseSplitFrom_bounds SPLIT_SEPS r (by decide)

theorem splitLoop_flatten : ∀ (n : Nat) (r : List Char), r.length ≤ n →
    (splitLoop r).flatten = r := by
  intro n
  induction n with
  | zero =>
    intro r h
    have : r = [] := List.length_eq_zero.mp (Nat.le_zero.mp h)
    subst this
    rw [splitLoop]
    simp
  | succ n ih =>
    intro r hlen
    rw [splitLoop]
    by_cases hnil : r = []
    · rw [if_pos hnil]
      simp [hnil]
    · rw [if_neg hnil]
      by_cases hle : r.length ≤ MAX_MSG_LEN
      · rw [if_pos hle]
        simp
      · rw [if_neg hle]
        rw [List.flatten_cons]
        have h1 := (chooseSplit_bounds r).1
        have hdrop : (r.drop (chooseSplit r)).length ≤ n := by
          rw [List.length_drop]
          omega
        rw [ih _ hdrop, List.take_append_drop]

theorem splitLoop_chunk_le : ∀ (n : Nat) (r : List Char), r.length ≤ n →
    ∀ c ∈ splitLoop r, c.length ≤ MAX_MSG_LEN := by
  intro n
  induction n with
  | zero =>
    intro r h c hc
    have : r = [] := List.length_eq_zero.mp (Nat.le_zero.mp h)
    subst this
    rw [splitLoop] at hc
    simp at hc
  | succ n ih =>
    intro r hlen c hc
    rw [splitLoop] at hc
    by_cases hnil : r = []
    · rw [if_pos hnil] at hc
      simp at hc
    · rw [if_neg hnil] at hc
      by_cases hle : r.length ≤ MAX_MSG_LEN
      · rw [if_pos hle] at hc
        rcases List.mem_singleton.mp hc with h
        subst h
        exact hle
      · rw [if_neg hle] at hc
        rcases List.mem_cons.mp hc with h | h
        · subst h
          rw [List.length_take]
          have := (chooseSplit_bounds r).2
          omega
        · have h1 := (chooseSplit_bounds r).1
          exact ih (r.drop (chooseSplit r)) (by rw [List.length_drop]; omega) c h

/-- C7 (amended).  `_extract_tables` replaces with a placeholder exactly
those maximal runs of at least 2 consecutive pipe-containing lines in
which at least one line consists solely of dashes, colons, pipes and
whitespace *and contains two consecutive dashes*; a run of
pipe-containing lines with no such separator row (and every non-pipe
line) is passed through unmodified.  Stated as equality with the
takeWhile/dropWhile maximal-run formulation. -/
theorem c7_extract_tables (text : List Char) :
    extract_tables text =
      (joinLinesC (extract_tables_spec_go [] (splitLinesC text)).1,
       (extract_tables_spec_go [] (splitLinesC text)).2) := by
  unfold extract_tables
  rw [extractTablesGo_eq_spec ((splitLinesC text).length + 1) (splitLinesC text) (by omega) []]

/-- C7 counterexample to the claim as stated: the two pipe-containing
lines `a|b` and `|-|-|` form a maximal run of length 2 whose second line
consists solely of dashes and pipes, yet `_extract_tables` passes the
run through unmodified and stores no table, because the separator test
additionally requires two *consecutive* dashes (`"--" in line`). -/
theorem c7_extract_tables_counterexample :
    extract_tables (("a|b\n|-|-|").toList) =
        (("a|b\n|-|-|").toList, ([] : List (List Char))) ∧
      hasPipe (("a|b").toList) = true ∧ hasPipe (("|-|-|").toList) = true ∧
      (("|-|-|").toList ≠ [] ∧ (("|-|-|").toList).all sepCharsetChar = true) := by
  decide

/-- C6 (code bug).  `markdown_to_telegram_html` applied to the natural
input `|a|` / `|--|` / `|b ⟨fenced block with content c⟩ d|` — a table
whose last cell holds a fenced code block.  The fenced block is
extracted first; its placeholder line is then swallowed into the
extracted table; and because code blocks are restored *before* tables,
the final output still contains the raw placeholder bytes
`\x00CB0\x00` while the fenced content `c` has vanished entirely: the
fenced content is *not* rendered as escaped literal text inside a
preformatted block. -/
theorem c6_fenced_block_lost :
    markdown_to_telegram_html
        (("|a|\n|--|\n|b \x60\x60\x60\nc\x60\x60\x60 d|").toList) =
      ("<pre>|a|\n|--|\n|b \x00CB0\x00 d|</pre>").toList ∧
      'c' ∉ ("<pre>|a|\n|--|\n|b \x00CB0\x00 d|</pre>").toList := by
  exact ⟨by decide, by decide⟩

/-- C8.  `_split_text` returns the text itself as a single unchanged
chunk when its length is at most `MAX_MSG_LEN` (4096); otherwise it
cuts chunks each of length at most the maximum whose concatenation is
exactly the original text, and returns them with whitespace-only chunks
dropped; each cut point is chosen by trying paragraph break, line break,
then word break in priority order, at the *latest* occurrence that ends
within the limit (`rfind`), the separator staying with the left chunk. -/
theorem c8_split_text (text : List Char) :
    (text.length ≤ MAX_MSG_LEN → split_text text = [text]) ∧
      (MAX_MSG_LEN < text.length →
        split_text text = (splitLoop text).filter (fun c => !(stripChars c).isEmpty) ∧
        (splitLoop text).flatten = text ∧
        ∀ c ∈ splitLoop text, c.length ≤ MAX_MSG_LEN) ∧
      (∀ sep i, sep ≠ [] → rfind sep text MAX_MSG_LEN = some i →
        matchesAt sep text i = true ∧ i + sep.length ≤ MAX_MSG_LEN ∧
        ∀ j, matchesAt sep text j = true → j + sep.length ≤ MAX_MSG_LEN → j ≤ i) := by
  refine ⟨?_, ?_, ?_⟩
  · intro h
    unfold split_text
    rw [if_pos h]
  · intro h
    refine ⟨?_, splitLoop_flatten text.length text le_rfl,
      splitLoop_chunk_le text.length text le_rfl⟩
    unfold split_text
    rw [if_neg (by omega)]
  · intro sep i hsep hr
    exact rfind_some hsep hr

/-- C8 witness: a short text is returned unchanged; an over-long text
splits into in-limit chunks that concatenate back; `rfind` picks the
last fitting word break. -/
theorem c8_split_text_witness :
    (("ab").toList.length ≤ MAX_MSG_LEN ∧ split_text (("ab").toList) = [("ab").toList]) ∧
      (MAX_MSG_LEN < (List.replicate 5000 'a').length ∧
        (splitLoop (List.replicate 5000 'a')).flatten = List.replicate 5000 'a' ∧
        ∀ c ∈ splitLoop (List.replicate 5000 'a'), c.length ≤ MAX_MSG_LEN) ∧
      ((" ").toList ≠ [] ∧ rfind ((" ").toList) (("a b").toList) MAX_MSG_LEN = some 1 ∧
        matchesAt ((" ").toList) (("a b").toList) 1 = true) := by
  have h2 := (c8_split_text (List.replicate 5000 'a')).2.1
    (by rw [List.length_replicate]; decide)
  have h3 := (c8_split_text (("a b").toList)).2.2 ((" ").toList) 1 (by decide) (by decide)
  exact ⟨⟨by decide, (c8_split_text (("ab").toList)).1 (by decide)⟩,
    ⟨by rw [List.length_replicate]; decide, h2.2.1, h2.2.2⟩, ⟨by decide, by decide, h3.1⟩⟩

/-- C5 (code bug).  A delivery attempt whose HTML send raises `TimedOut`
(completion ambiguous: the message may already have been delivered) is
not surfaced as-is: `_retry_on_network_error` deliberately re-raises the
`TimedOut` without retrying, but `send_long_message` catches it with
`except NetworkError:` — `TimedOut` *is* a `NetworkError` subclass — and
performs a second send of the same chunk as plain text.  Here the chunk
`hi` goes out twice, first as HTML and then again as plain text.  The
second and third conjuncts record the helper's intended behaviour: a
sole `TimedOut` makes exactly one attempt with no backoff, while
transient network errors are retried with the delays 2, 5, 10 before
the last error is re-raised. -/
theorem c5_ambiguous_resend :
    send_chunk (("hi").toList)
        (fun n => if n = 0 then TgRes.err TgErr.timedOut else TgRes.ok)
        (fun _ => TgRes.ok) =
      ([SendEvent.sendHtml (("hi").toList), SendEvent.sendPlain (("hi").toList)],
        Except.ok ()) ∧
      retry_on_network_error false (fun _ => TgRes.err TgErr.timedOut) =
        ([], 1, Except.error TgErr.timedOut) ∧
      retry_on_network_error false (fun _ => TgRes.err TgErr.netErr) =
        ([2, 5, 10], 4, Except.error TgErr.netErr) := by
  exact ⟨by decide, by decide, by decide⟩
